import Mathlib

/-!
# Minesweeper (`minesweeper.cpp`): board generator and game engine

A shallow embedding of the class `Minesweeper` and proofs about it.

* Coordinates, counters and `adjacentMines` are C++ `int`; they are modelled as
  unbounded `Int`. Coordinates and adjacency counts stay within the range of the grid,
  `movesLeft` stays between 0 and `SIDE * SIDE` in the states that `run` reaches, and
  the turn counter would need 2^31 accepted `open` commands to overflow (undefined
  behaviour in C++).
* A `Board` (`std::vector<std::vector<Cell>>`) is a list of `SIDE` rows of `SIDE`
  cells. The cells of the grid are the coordinates accepted by `isValid`; the source
  reads and writes no other coordinate.
* `openCell` is recursive; it is modelled with an explicit recursion depth (`fuel`)
  and returns `none` when the depth is exhausted.
* `placeMines` draws from a random generator; it is modelled on the finite sequence of
  pairs that the generator yields and returns `none` when the sequence ends before
  `MINES` mines are placed.
-/

namespace Minesweeper

/-! ## Data model -/

/-- The constant `SIDE`. -/
def SIDE : Int := 10

/-- The constant `MINES`. -/
def MINES : Int := 10

/-- The enumeration `CellState`. -/
inductive CellState where
  | Hidden
  | Revealed
  | Flagged
  deriving DecidableEq, Repr

/-- The structure `Cell`, with the default member initialisers of the source. -/
structure Cell where
  isMine : Bool := false
  adjacentMines : Int := 0
  state : CellState := CellState.Hidden
  deriving DecidableEq, Repr

/-- The type `Board` as the constructor of `Minesweeper` builds it: `SIDE` rows of
`SIDE` cells each. -/
structure Board where
  rows : List (List Cell)
  height : rows.length = SIDE.toNat
  width : ∀ row ∈ rows, row.length = SIDE.toNat

/-- The member function `isValid`. -/
def isValid (row col : Int) : Bool :=
  decide (row ≥ 0) && decide (row < SIDE) && decide (col ≥ 0) && decide (col < SIDE)

/-- The read access `b[row][col]`. The source reads a cell only at coordinates
accepted by `isValid`; elsewhere the model yields a default cell. -/
def Board.get (b : Board) (row col : Int) : Cell :=
  if isValid row col then (b.rows.getD row.toNat []).getD col.toNat {} else {}

/-- The write access `b[row][col] = v`. The source writes a cell only at coordinates
accepted by `isValid`; elsewhere the model leaves the board as it is. -/
def Board.set (b : Board) (row col : Int) (v : Cell) : Board :=
  if hv : isValid row col = true then
    { rows := b.rows.set row.toNat ((b.rows.getD row.toNat []).set col.toNat v)
      height := by rw [List.length_set]; exact b.height
      width := by
        intro x hx
        rcases List.mem_or_eq_of_mem_set hx with h | h
        · exact b.width x h
        · subst h
          rw [List.length_set, List.getD_eq_getElem?_getD]
          cases hr : b.rows[row.toNat]? with
          | none =>
            have hlen := b.height
            rw [List.getElem?_eq_none_iff] at hr
            simp only [isValid, SIDE, Bool.and_eq_true, decide_eq_true_eq] at hv
            simp only [SIDE] at hlen
            omega
          | some y => exact b.width y (List.getElem?_mem hr) }
  else b

/-- The assignment `b[row][col].isMine = v`. -/
def Board.setMine (b : Board) (row col : Int) (v : Bool) : Board :=
  b.set row col { b.get row col with isMine := v }

/-- The assignment `b[row][col].adjacentMines = v`. -/
def Board.setAdjacent (b : Board) (row col : Int) (v : Int) : Board :=
  b.set row col { b.get row col with adjacentMines := v }

/-- The assignment `b[row][col].state = v`. -/
def Board.setState (b : Board) (row col : Int) (v : CellState) : Board :=
  b.set row col { b.get row col with state := v }

/-- The board `Board(SIDE, std::vector<Cell>(SIDE))` built by the constructor: every
cell has its default value. -/
def Board.fresh : Board where
  rows := List.replicate SIDE.toNat (List.replicate SIDE.toNat {})
  height := List.length_replicate _ _
  width := by
    intro row h
    rw [List.eq_of_mem_replicate h]
    exact List.length_replicate _ _

/-- The values `0, 1, ..., SIDE - 1` taken by the loop variables `r` and `c`. -/
def indices : List Int := (List.range SIDE.toNat).map Int.ofNat

/-- The arrays `dr` and `dc`, zipped: the eight offsets in the order of the source. -/
def directions : List (Int × Int) :=
  [(-1, -1), (-1, 0), (-1, 1), (0, -1), (0, 1), (1, -1), (1, 0), (1, 1)]

/-- The state of a game: the two boards owned by the object and the three local
variables of `run`. -/
structure State where
  realBoard : Board
  playerBoard : Board
  movesLeft : Int
  turn : Int
  gameOver : Bool

/-! ## Board generator -/

/-- One pass through the body of the loop of `placeMines` with the draw `d = (r, c)`:
the board and the counter `placed` after it. -/
def placeMinesDraw (b : Board) (placed : Int) (d : Int × Int) : Board × Int :=
  if !(b.get d.1 d.2).isMine then (b.setMine d.1 d.2 true, placed + 1) else (b, placed)

/-- The loop `while (placed < MINES)` of `placeMines` on the sequence of pairs that the
generator yields: `none` when the sequence ends before `placed` reaches `MINES`. -/
def placeMinesLoop : Board → Int → List (Int × Int) → Option Board
  | b, placed, [] => if placed < MINES then none else some b
  | b, placed, d :: ds =>
    if placed < MINES then
      placeMinesLoop (placeMinesDraw b placed d).1 (placeMinesDraw b placed d).2 ds
    else some b

/-- The member function `placeMines`, on the sequence of pairs that the generator
yields. -/
def placeMines (b : Board) (draws : List (Int × Int)) : Option Board :=
  placeMinesLoop b 0 draws

/-- The coordinates (r, c) in the order in which the nested loops
`for r ... for c ...` visit them (row-major). -/
def cells : List (Int × Int) :=
  indices.flatMap fun r => indices.map fun c => (r, c)

/-- The scan of `relocateMine`: the first (r, c) in row-major order that is not the
avoided cell and not a mine. -/
def relocateTarget (b : Board) (avoidRow avoidCol : Int) : Option (Int × Int) :=
  cells.find? fun p => !(p.1 == avoidRow && p.2 == avoidCol) && !(b.get p.1 p.2).isMine

/-- The member function `relocateMine`. -/
def relocateMine (b : Board) (avoidRow avoidCol : Int) : Board :=
  match relocateTarget b avoidRow avoidCol with
  | some p => (b.setMine p.1 p.2 true).setMine avoidRow avoidCol false
  | none => b

/-- The inner loop of `calculateAdjacents`: the value of `count` for the cell (r, c). -/
def countAdjacent (b : Board) (r c : Int) : Int :=
  directions.foldl
    (fun count d =>
      let nr := r + d.1
      let nc := c + d.2
      if isValid nr nc && (b.get nr nc).isMine then count + 1 else count)
    0

/-- The body of the two outer loops of `calculateAdjacents` for the cell (r, c). -/
def calculateCell (b : Board) (r c : Int) : Board :=
  if (b.get r c).isMine then b else b.setAdjacent r c (countAdjacent b r c)

/-- The member function `calculateAdjacents`. -/
def calculateAdjacents (b : Board) : Board :=
  indices.foldl (fun b r => indices.foldl (fun b c => calculateCell b r c) b) b

/-! ## Game engine -/

/-- The member function `openCell` with recursion depth at most `fuel`: the returned
flag and the state after the call, `none` when the depth does not suffice. -/
def openCellFuel : Nat → State → Int → Int → Option (Bool × State)
  | 0, _, _, _ => none
  | fuel + 1, s, row, col =>
    if !isValid row col then some (true, s)
    else if (s.playerBoard.get row col).state = CellState.Revealed then some (true, s)
    else
      let s1 := { s with playerBoard := s.playerBoard.setState row col CellState.Revealed }
      if (s1.realBoard.get row col).isMine then some (false, s1)
      else
        let s2 := { s1 with movesLeft := s1.movesLeft - 1 }
        if (s2.realBoard.get row col).adjacentMines = 0 then
          (directions.foldlM
            (fun (st : State) d =>
              let nr := row + d.1
              let nc := col + d.2
              if isValid nr nc && decide ((st.playerBoard.get nr nc).state = CellState.Hidden) then
                (openCellFuel fuel st nr nc).map Prod.snd
              else some st)
            s2).map fun st => (true, st)
        else some (true, s2)

/-- The member function `openCell`. Every call that gets past the check for
`Revealed` reveals a cell, so the depth never exceeds the number of cells. -/
def openCell (s : State) (row col : Int) : Option (Bool × State) :=
  openCellFuel (SIDE * SIDE).toNat s row col

/-- The messages printed by `run` and `toggleFlag`. -/
inductive Message where
  | invalidCoordinates
  | unknownAction
  | cellIsFlagged
  | cantFlagRevealed
  | boom
  | congratulations
  deriving DecidableEq, Repr

/-- The member function `toggleFlag`: the visible board after the call and what it
printed. -/
def toggleFlag (s : State) (row col : Int) : State × List Message :=
  if (s.playerBoard.get row col).state = CellState.Revealed then (s, [Message.cantFlagRevealed])
  else
    let flipped :=
      if (s.playerBoard.get row col).state = CellState.Flagged then CellState.Hidden
      else CellState.Flagged
    ({ s with playerBoard := s.playerBoard.setState row col flipped }, [])

/-- The member function `revealMines`. -/
def revealMines (s : State) : State :=
  let revealed :=
    indices.foldl
      (fun p r => indices.foldl
        (fun p c => if (s.realBoard.get r c).isMine then p.setState r c CellState.Revealed else p)
        p)
      s.playerBoard
  { s with playerBoard := revealed }

/-- One command read from the input: `row`, `col` and `action`. -/
structure Command where
  row : Int
  col : Int
  action : Char

/-- The first-move rule of `run`: on turn 0, when the target of an `open` command is
a mine, `relocateMine` and then `calculateAdjacents` are called. -/
def relocateOnFirstMove (s : State) (row col : Int) : State :=
  if s.turn = 0 ∧ (s.realBoard.get row col).isMine = true then
    { s with realBoard := calculateAdjacents (relocateMine s.realBoard row col) }
  else s

/-- The body of the loop of `run` for one command, entered when `gameOver` is false:
the state after the iteration and the messages it printed (the boards drawn by
`printBoard` are not part of the model). -/
def step (s : State) (cmd : Command) : Option (State × List Message) :=
  if !isValid cmd.row cmd.col then some (s, [Message.invalidCoordinates])
  else
    let action := cmd.action.toLower
    if action = 'f' then some (toggleFlag s cmd.row cmd.col)
    else if action ≠ 'o' then some (s, [Message.unknownAction])
    else
      let s1 := relocateOnFirstMove s cmd.row cmd.col
      if (s1.playerBoard.get cmd.row cmd.col).state = CellState.Flagged then
        some (s1, [Message.cellIsFlagged])
      else
        match openCell s1 cmd.row cmd.col with
        | none => none
        | some (false, s2) =>
          some ({ revealMines s2 with gameOver := true, turn := s2.turn + 1 }, [Message.boom])
        | some (true, s2) =>
          if s2.movesLeft = 0 then
            some ({ revealMines s2 with gameOver := true, turn := s2.turn + 1 },
              [Message.congratulations])
          else some ({ s2 with turn := s2.turn + 1 }, [])

/-- The loop `while (!gameOver)` of `run` on a finite sequence of commands. -/
def runLoop : State → List Command → Option State
  | s, [] => some s
  | s, cmd :: rest =>
    if s.gameOver then some s
    else
      match step s cmd with
      | none => none
      | some (s', _) => runLoop s' rest

/-- The state in which `run` enters its loop, after the constructor (two fresh boards,
`placeMines`, `calculateAdjacents`) and the initialisation of the local variables. -/
def newGame (draws : List (Int × Int)) : Option State :=
  (placeMines Board.fresh draws).map fun layout =>
    { realBoard := calculateAdjacents layout
      playerBoard := Board.fresh
      movesLeft := SIDE * SIDE - MINES
      turn := 0
      gameOver := false }

/-! ## Vocabulary of the specification -/

/-- The number of mines of a truth grid. -/
def mineCount (b : Board) : Nat :=
  cells.countP fun p => (b.get p.1 p.2).isMine

/-- The eight non-zero offsets (dr, dc) in {-1, 0, 1} x {-1, 0, 1}. -/
def offsets : List (Int × Int) :=
  (([-1, 0, 1] : List Int).flatMap fun dr => ([-1, 0, 1] : List Int).map fun dc => (dr, dc)).filter
    fun d => decide (d ≠ (0, 0))

/-- The number of cells (r + dr, c + dc), over the eight offsets, that lie inside the
grid and are mines. -/
def mineNeighbours (b : Board) (r c : Int) : Nat :=
  offsets.countP fun d => isValid (r + d.1) (c + d.2) && (b.get (r + d.1) (c + d.2)).isMine

/-- Every non-mine cell of the grid stores the exact number of its mine neighbours. -/
def ExactAdjacency (b : Board) : Prop :=
  ∀ r c, isValid r c = true → (b.get r c).isMine = false →
    (b.get r c).adjacentMines = mineNeighbours b r c

/-- Two distinct coordinates whose rows and columns differ by at most one. -/
def Adjacent8 (p q : Int × Int) : Prop :=
  p ≠ q ∧ -1 ≤ q.1 - p.1 ∧ q.1 - p.1 ≤ 1 ∧ -1 ≤ q.2 - p.2 ∧ q.2 - p.2 ≤ 1

/-- The visible state of the cell at `p`. -/
def State.visible (s : State) (p : Int × Int) : CellState :=
  (s.playerBoard.get p.1 p.2).state

/-- The truth cell at `p` is not a mine and has no mine neighbour recorded. -/
def State.zeroSafe (s : State) (p : Int × Int) : Prop :=
  (s.realBoard.get p.1 p.2).isMine = false ∧ (s.realBoard.get p.1 p.2).adjacentMines = 0

/-- The list `p` is a path p0 = start, p1, ..., pk = x of cells of the grid,
consecutive ones 8-adjacent, in which every cell before the last is a non-mine cell
with `adjacentMines = 0` and every cell after the first is `Hidden` in `s`. -/
def CascadePath (s : State) (start x : Int × Int) (p : List (Int × Int)) : Prop :=
  p.head? = some start ∧ p.getLast? = some x ∧
  (∀ q ∈ p, isValid q.1 q.2 = true) ∧
  p.Chain' Adjacent8 ∧
  (∀ q ∈ p.dropLast, s.zeroSafe q) ∧
  (∀ q ∈ p.tail, s.visible q = CellState.Hidden)

/-- The number of non-mine cells whose visible state is not `Revealed`. -/
def safeLeft (s : State) : Nat :=
  cells.countP fun p =>
    !(s.realBoard.get p.1 p.2).isMine && decide (s.visible p ≠ CellState.Revealed)

/-- The number of non-mine cells whose visible state is `Hidden`. -/
def hiddenSafe (s : State) : Nat :=
  cells.countP fun p =>
    !(s.realBoard.get p.1 p.2).isMine && decide (s.visible p = CellState.Hidden)

/-- The number of cells whose visible state is not `Revealed`. -/
def unrevealed (s : State) : Nat :=
  cells.countP fun p => decide (s.visible p ≠ CellState.Revealed)

/-- The state in which `run` enters its loop on a truth grid with `MINES` mines:
every visible cell `Hidden`, `movesLeft = SIDE * SIDE - MINES`, `turn = 0` and
`gameOver = false`. -/
def InitialState (s : State) : Prop :=
  (mineCount s.realBoard : Int) = MINES ∧
  (∀ r c, isValid r c = true → (s.playerBoard.get r c).state = CellState.Hidden) ∧
  s.movesLeft = SIDE * SIDE - MINES ∧ s.turn = 0 ∧ s.gameOver = false

/-- The states that the loop of `run` reaches from `s0`: an iteration is made only
while `gameOver` is false. -/
inductive Reachable (s0 : State) : State → Prop where
  | start : Reachable s0 s0
  | next {s s' : State} {msgs : List Message} (cmd : Command) :
      Reachable s0 s → s.gameOver = false → step s cmd = some (s', msgs) → Reachable s0 s'

/-- The invariant of the loop of `run`: `movesLeft` is the number of non-mine cells
not yet revealed, the turn counter is not negative, nothing is revealed while it is 0,
and `movesLeft` is positive while the game is on. -/
def LoopInvariant (s : State) : Prop :=
  s.movesLeft = (safeLeft s : Int) ∧ 0 ≤ s.turn ∧
  (s.turn = 0 → ∀ p, isValid p.1 p.2 = true → s.visible p ≠ CellState.Revealed) ∧
  (s.gameOver = false → 0 < s.movesLeft)

/-- The iteration that produced `res` ended the game with the loss message. -/
def endsInLoss (res : State × List Message) : Prop :=
  res.1.gameOver = true ∧ Message.boom ∈ res.2

/-- The iteration that produced `res` ended the game with the win message. -/
def endsInWin (res : State × List Message) : Prop :=
  res.1.gameOver = true ∧ Message.congratulations ∈ res.2

/-- The state after `cell.state = CellState::Revealed` in `openCell`. -/
def State.reveal (s : State) (row col : Int) : State :=
  { s with playerBoard := s.playerBoard.setState row col CellState.Revealed }

/-- The state after `--movesLeft` in `openCell`. -/
def State.countDown (s : State) : State :=
  { s with movesLeft := s.movesLeft - 1 }

/-- The guard of the recursive call of `openCell` for the offset `d`. -/
def cascadeGuard (st : State) (row col : Int) (d : Int × Int) : Bool :=
  isValid (row + d.1) (col + d.2) &&
    decide ((st.playerBoard.get (row + d.1) (col + d.2)).state = CellState.Hidden)

/-- The executions of the loop over the eight neighbours in `openCell`, for the
offsets `ds` still to visit, when the recursive calls behave as `R` says. -/
inductive CascadeLoop (R : State → Int → Int → Bool → State → Prop) (row col : Int) :
    List (Int × Int) → State → State → Prop where
  | done (s : State) : CascadeLoop R row col [] s s
  | skip {d : Int × Int} {ds : List (Int × Int)} {st s' : State} :
      cascadeGuard st row col d = false → CascadeLoop R row col ds st s' →
      CascadeLoop R row col (d :: ds) st s'
  | call {d : Int × Int} {ds : List (Int × Int)} {st st1 s' : State} {b : Bool} :
      cascadeGuard st row col d = true → R st (row + d.1) (col + d.2) b st1 →
      CascadeLoop R row col ds st1 s' → CascadeLoop R row col (d :: ds) st s'

/-- The state `s'` arises from `s` by an execution of `openCell` at `root`: only
visible cells change, each from not `Revealed` to `Revealed` (from `Hidden`, the
root apart), and `movesLeft` goes down by the number of non-mine cells revealed. -/
def Cascade (root : Int × Int) (s s' : State) : Prop :=
  s'.realBoard = s.realBoard ∧ s'.turn = s.turn ∧ s'.gameOver = s.gameOver ∧
  (∀ r c, s'.playerBoard.get r c = s.playerBoard.get r c ∨
    (isValid r c = true ∧ (s.playerBoard.get r c).state ≠ CellState.Revealed ∧
      ((r, c) = root ∨ (s.playerBoard.get r c).state = CellState.Hidden) ∧
      s'.playerBoard.get r c = { s.playerBoard.get r c with state := CellState.Revealed })) ∧
  s.movesLeft - s'.movesLeft = (safeLeft s : Int) - (safeLeft s' : Int)

/-- What a call `openCell(row, col)` that returns `b` in state `s'` has done. -/
def OpenPost (s : State) (row col : Int) (b : Bool) (s' : State) : Prop :=
  Cascade (row, col) s s' ∧
  (isValid row col = true → s'.visible (row, col) = CellState.Revealed) ∧
  (b = false ↔ (isValid row col = true ∧ s.visible (row, col) ≠ CellState.Revealed ∧
    (s.realBoard.get row col).isMine = true))

/-- There is a cascade path from `p` to `x` in `s`. -/
inductive Reach (s : State) : Int × Int → Int × Int → Prop where
  | here (p : Int × Int) : Reach s p p
  | next {p q x : Int × Int} : s.zeroSafe p → isValid q.1 q.2 = true → Adjacent8 p q →
      s.visible q = CellState.Hidden → Reach s q x → Reach s p x

/-- The cell `p` comes no later than `q` in row-major order. -/
def rowMajorLE (p q : Int × Int) : Prop :=
  p.1 < q.1 ∨ (p.1 = q.1 ∧ p.2 ≤ q.2)

/-- The cell `p` comes before `q` in row-major order. -/
def rowMajorLT (p q : Int × Int) : Prop :=
  p.1 < q.1 ∨ (p.1 = q.1 ∧ p.2 < q.2)

/-- The number of non-mine cells that are `Revealed` in `s'` and were not in `s`. -/
def revealedSafe (s s' : State) : Nat :=
  cells.countP fun p =>
    !(s.realBoard.get p.1 p.2).isMine &&
      (decide (s.visible p ≠ CellState.Revealed) && decide (s'.visible p = CellState.Revealed))

/-! ## Sample boards -/

/-- A layout of ten mines. -/
def sampleMines : List (Int × Int) :=
  [(0, 0), (0, 5), (1, 8), (3, 3), (4, 7), (5, 1), (6, 6), (7, 9), (8, 2), (9, 4)]

/-- The truth grid with the mines of `sampleMines` before the adjacency counts are
computed. -/
def sampleLayout : Board :=
  sampleMines.foldl (fun b p => b.setMine p.1 p.2 true) Board.fresh

/-- The game on `sampleMines` as the constructor and the head of `run` set it up. -/
def sampleGame : State where
  realBoard := calculateAdjacents sampleLayout
  playerBoard := Board.fresh
  movesLeft := SIDE * SIDE - MINES
  turn := 0
  gameOver := false

/-- The sample game after the command `0 1 f`: the non-mine cell (0, 1) is flagged. -/
def flaggedGame : State :=
  (toggleFlag sampleGame 0 1).1

/-- The sample game after the command `3 3 f`: the mine at (3, 3) is flagged and no
cell has been opened yet. -/
def flaggedMineGame : State :=
  (toggleFlag sampleGame 3 3).1

/-- A sequence of draws that yields `sampleMines`: the second and the fifth draw
hit a cell that is already a mine. -/
def sampleDraws : List (Int × Int) :=
  [(0, 0), (0, 0), (0, 5), (1, 8), (0, 5), (3, 3), (4, 7), (5, 1), (6, 6), (7, 9), (8, 2),
    (9, 4), (2, 2)]

/-- The sample game on a later turn: the turn counter is 1. -/
def lateGame : State :=
  { sampleGame with turn := 1 }

/-- The state after the command `3 3 o` on `flaggedMineGame`. -/
def rejectedGame : State :=
  relocateOnFirstMove flaggedMineGame 3 3

/-- The state after the command `5 1 f` on `rejectedGame`: a second mine is flagged. -/
def reflaggedGame : State :=
  (toggleFlag rejectedGame 5 1).1

/-- The state after the command `5 1 o` on `reflaggedGame`. -/
def rejectedAgainGame : State :=
  relocateOnFirstMove reflaggedGame 5 1

/-! ## Coordinates and boards -/

theorem isValid_iff (r c : Int) : isValid r c = true ↔ (0 ≤ r ∧ r < 10) ∧ 0 ≤ c ∧ c < 10 := by
  simp only [isValid, SIDE, Bool.and_eq_true, decide_eq_true_eq, ge_iff_le]
  tauto

theorem indices_eq : indices = [0, 1, 2, 3, 4, 5, 6, 7, 8, 9] := by decide

theorem mem_indices (r : Int) : r ∈ indices ↔ 0 ≤ r ∧ r < 10 := by
  rw [indices_eq]
  simp only [List.mem_cons, List.mem_singleton, List.not_mem_nil, or_false]
  omega

theorem mem_cells (p : Int × Int) : p ∈ cells ↔ isValid p.1 p.2 = true := by
  obtain ⟨r, c⟩ := p
  simp only [cells, List.mem_flatMap, List.mem_map, Prod.mk.injEq, mem_indices, isValid_iff]
  constructor
  · rintro ⟨a, ha, b, hb, rfl, rfl⟩
    exact ⟨ha, hb⟩
  · rintro ⟨hr, hc⟩
    exact ⟨r, hr, c, hc, rfl, rfl⟩

theorem cells_nodup : cells.Nodup := by decide

theorem cells_length : cells.length = 100 := by decide

theorem Board.row_length (b : Board) (i : Nat) (h : i < b.rows.length) :
    (b.rows[i]).length = 10 :=
  b.width _ (List.getElem_mem h)

theorem Board.get_valid (b : Board) (r c : Int) (h : isValid r c = true) :
    ∃ (h1 : r.toNat < b.rows.length) (h2 : c.toNat < (b.rows[r.toNat]).length),
      b.get r c = (b.rows[r.toNat])[c.toNat] := by
  have hb := b.height
  simp only [SIDE] at hb
  rw [isValid_iff] at h
  have h1 : r.toNat < b.rows.length := by omega
  have h2 : c.toNat < (b.rows[r.toNat]).length := by
    rw [b.row_length _ h1]; omega
  refine ⟨h1, h2, ?_⟩
  have hv : isValid r c = true := by rw [isValid_iff]; exact h
  simp only [Board.get, hv, if_true, List.getD_eq_getElem?_getD, List.getElem?_eq_getElem h1,
    Option.getD_some, List.getElem?_eq_getElem h2]

theorem Board.get_invalid (b : Board) (r c : Int) (h : isValid r c = false) : b.get r c = {} := by
  simp [Board.get, h]

theorem Board.get_set (b : Board) (row col : Int) (v : Cell) (r c : Int) :
    (b.set row col v).get r c =
      if isValid row col = true ∧ r = row ∧ c = col then v else b.get r c := by
  by_cases hv : isValid row col = true
  · by_cases hrc : isValid r c = true
    · obtain ⟨h1, h2, e⟩ := b.get_valid r c hrc
      obtain ⟨g1, g2, e'⟩ := (b.set row col v).get_valid r c hrc
      obtain ⟨k1, k2, -⟩ := b.get_valid row col hv
      rw [e, e']
      have hrows : (b.set row col v).rows =
          b.rows.set row.toNat ((b.rows.getD row.toNat []).set col.toNat v) := by
        simp only [Board.set, hv, dite_true]
      have hrow : b.rows.getD row.toNat [] = b.rows[row.toNat] := by
        simp only [List.getD_eq_getElem?_getD, List.getElem?_eq_getElem k1, Option.getD_some]
      have hv' := hv
      rw [isValid_iff] at hrc hv
      simp only [hrows, hrow]
      by_cases hr : r = row
      · subst hr
        by_cases hc : c = col
        · subst hc
          simp [List.getElem_set_self, hv']
        · have : col.toNat ≠ c.toNat := by omega
          simp [List.getElem_set_self, List.getElem_set_ne this, hc]
      · have : row.toNat ≠ r.toNat := by omega
        simp [List.getElem_set_ne this, hr]
    · have hne : ¬ (r = row ∧ c = col) := by
        rintro ⟨rfl, rfl⟩
        exact hrc hv
      have hf : isValid r c = false := by simpa using hrc
      simp only [hne, and_false, if_false, Board.get_invalid _ _ _ hf]
  · simp [Board.set, hv]

theorem Board.ext_get {b1 b2 : Board}
    (h : ∀ r c, isValid r c = true → b1.get r c = b2.get r c) : b1 = b2 := by
  have hb1 := b1.height
  have hb2 := b2.height
  simp only [SIDE] at hb1 hb2
  have hrows : b1.rows = b2.rows := by
    apply List.ext_getElem (by omega)
    intro i hi1 hi2
    apply List.ext_getElem (by rw [b1.row_length _ hi1, b2.row_length _ hi2])
    intro j hj1 hj2
    rw [b1.row_length _ hi1] at hj1
    have hv : isValid (i : Int) (j : Int) = true := by
      rw [isValid_iff]; omega
    obtain ⟨_, _, e1⟩ := b1.get_valid _ _ hv
    obtain ⟨_, _, e2⟩ := b2.get_valid _ _ hv
    have := h _ _ hv
    rw [e1, e2] at this
    simpa using this
  cases b1
  cases b2
  simp only [Board.mk.injEq]
  exact hrows

theorem Board.get_setMine (b : Board) (row col : Int) (v : Bool) (r c : Int) :
    (b.setMine row col v).get r c =
      if isValid row col = true ∧ r = row ∧ c = col then { b.get row col with isMine := v }
      else b.get r c :=
  Board.get_set _ _ _ _ _ _

theorem Board.get_setAdjacent (b : Board) (row col : Int) (v : Int) (r c : Int) :
    (b.setAdjacent row col v).get r c =
      if isValid row col = true ∧ r = row ∧ c = col then
        { b.get row col with adjacentMines := v }
      else b.get r c :=
  Board.get_set _ _ _ _ _ _

theorem Board.get_setState (b : Board) (row col : Int) (v : CellState) (r c : Int) :
    (b.setState row col v).get r c =
      if isValid row col = true ∧ r = row ∧ c = col then { b.get row col with state := v }
      else b.get r c :=
  Board.get_set _ _ _ _ _ _

/-! ## Counting cells -/

theorem countP_flip {α : Type} (l : List α) (hnd : l.Nodup) (x : α) (hx : x ∈ l)
    (p q : α → Bool) (hsame : ∀ y, y ≠ x → q y = p y) (hp : p x = false) (hq : q x = true) :
    l.countP q = l.countP p + 1 := by
  induction l with
  | nil => cases hx
  | cons a l ih =>
    rw [List.nodup_cons] at hnd
    rw [List.countP_cons, List.countP_cons]
    by_cases hax : a = x
    · subst hax
      have hl : l.countP q = l.countP p := by
        apply List.countP_congr
        intro y hy
        have : y ≠ a := fun e => hnd.1 (e ▸ hy)
        rw [hsame y this]
      simp [hl, hp, hq]
    · have hxl : x ∈ l := by
        rcases List.mem_cons.1 hx with h | h
        · exact absurd h.symm hax
        · exact h
      rw [ih hnd.2 hxl, hsame a hax]
      omega

theorem countP_same {α : Type} (l : List α) (p q : α → Bool) (h : ∀ y ∈ l, q y = p y) :
    l.countP q = l.countP p := by
  apply List.countP_congr
  intro y hy
  rw [h y hy]

/-! ## relocateMine -/

theorem relocateTarget_some {b : Board} {ar ac : Int} {p : Int × Int}
    (h : relocateTarget b ar ac = some p) :
    isValid p.1 p.2 = true ∧ ¬ (p.1 = ar ∧ p.2 = ac) ∧ (b.get p.1 p.2).isMine = false := by
  have hm := List.mem_of_find?_eq_some h
  have hp := List.find?_some h
  rw [mem_cells] at hm
  simp only [Bool.and_eq_true, Bool.not_eq_true', Bool.and_eq_false_iff, beq_eq_false_iff_ne,
    ne_eq] at hp
  refine ⟨hm, ?_, hp.2⟩
  rintro ⟨h1, h2⟩
  rcases hp.1 with h | h
  · exact h h1
  · exact h h2

theorem relocateMine_get_isMine (b : Board) (ar ac : Int) (p : Int × Int)
    (h : relocateTarget b ar ac = some p) (hv : isValid ar ac = true) (r c : Int) :
    ((relocateMine b ar ac).get r c).isMine =
      if r = ar ∧ c = ac then false
      else if r = p.1 ∧ c = p.2 then true else (b.get r c).isMine := by
  obtain ⟨hpv, hne, -⟩ := relocateTarget_some h
  simp only [relocateMine, h]
  rw [Board.get_setMine, Board.get_setMine]
  simp only [hv, hpv, true_and]
  by_cases h1 : r = ar ∧ c = ac
  · rw [if_pos h1, if_pos h1]
  · rw [if_neg h1, if_neg h1]
    rw [Board.get_setMine]
    simp only [hpv, true_and]
    by_cases h2 : r = p.1 ∧ c = p.2
    · rw [if_pos h2, if_pos h2]
    · rw [if_neg h2, if_neg h2]

theorem mineCount_relocateMine (b : Board) (ar ac : Int) (hv : isValid ar ac = true)
    (hm : (b.get ar ac).isMine = true) : mineCount (relocateMine b ar ac) = mineCount b := by
  cases h : relocateTarget b ar ac with
  | none => simp only [relocateMine, h]
  | some p =>
    obtain ⟨hpv, hne, hpm⟩ := relocateTarget_some h
    have hget := relocateMine_get_isMine b ar ac p h hv
    -- the board in between: the target already a mine, the avoided cell still one
    have h1 : cells.countP (fun q => decide (q = p) || (b.get q.1 q.2).isMine)
        = mineCount b + 1 := by
      apply countP_flip cells cells_nodup p ((mem_cells p).2 hpv)
      · intro y hy
        simp [hy]
      · exact hpm
      · simp
    have h2 : cells.countP (fun q => decide (q = p) || (b.get q.1 q.2).isMine)
        = mineCount (relocateMine b ar ac) + 1 := by
      apply countP_flip cells cells_nodup (ar, ac) ((mem_cells (ar, ac)).2 hv)
      · intro y hy
        have hy' : ¬ (y.1 = ar ∧ y.2 = ac) := by
          rintro ⟨e1, e2⟩
          exact hy (Prod.ext e1 e2)
        rw [hget, if_neg hy']
        by_cases hyp : y = p
        · subst hyp
          simp
        · have : ¬ (y.1 = p.1 ∧ y.2 = p.2) := by
            rintro ⟨e1, e2⟩
            exact hyp (Prod.ext e1 e2)
          simp [hyp, this]
      · rw [hget]
        simp
      · simp [hm]
    omega

/-! ## calculateAdjacents -/

theorem foldl_nested {β : Type} (f : β → Int → Int → β) (rs cs : List Int) (b : β) :
    rs.foldl (fun b r => cs.foldl (fun b c => f b r c) b) b =
      (rs.flatMap fun r => cs.map fun c => (r, c)).foldl (fun b p => f b p.1 p.2) b := by
  induction rs generalizing b with
  | nil => rfl
  | cons r rs ih =>
    simp only [List.foldl_cons, List.flatMap_cons, List.foldl_append, List.foldl_map]
    exact ih _

theorem foldl_count {α : Type} (l : List α) (p : α → Bool) (init : Int) :
    l.foldl (fun count d => if p d = true then count + 1 else count) init =
      init + (l.countP p : Int) := by
  induction l generalizing init with
  | nil => simp
  | cons a l ih =>
    rw [List.foldl_cons, ih, List.countP_cons]
    by_cases h : p a = true
    · simp only [h, if_true, Nat.cast_add, Nat.cast_one]
      omega
    · have h' : p a = false := by simpa using h
      simp [h']

theorem offsets_eq : offsets = directions := by decide

theorem countAdjacent_eq (b : Board) (r c : Int) :
    countAdjacent b r c = (mineNeighbours b r c : Int) := by
  have h := foldl_count directions
    (fun d => isValid (r + d.1) (c + d.2) && (b.get (r + d.1) (c + d.2)).isMine) 0
  rw [Int.zero_add] at h
  rw [mineNeighbours, offsets_eq]
  exact h

theorem mineNeighbours_congr {b1 b2 : Board}
    (h : ∀ r c, (b1.get r c).isMine = (b2.get r c).isMine) (r c : Int) :
    mineNeighbours b1 r c = mineNeighbours b2 r c := by
  simp only [mineNeighbours, h]

theorem calculateCell_get (b : Board) (r c r' c' : Int) :
    (calculateCell b r c).get r' c' =
      if (isValid r c = true ∧ (b.get r c).isMine = false) ∧ r' = r ∧ c' = c then
        { b.get r c with adjacentMines := mineNeighbours b r c }
      else b.get r' c' := by
  unfold calculateCell
  by_cases hm : (b.get r c).isMine = true
  · simp [hm]
  · rw [if_neg hm, Board.get_setAdjacent, countAdjacent_eq]
    have hm' : (b.get r c).isMine = false := by simpa using hm
    simp only [hm', and_true, and_assoc]

theorem calculateCells_get (ps : List (Int × Int)) (b : Board) (r c : Int) :
    ((ps.foldl (fun b p => calculateCell b p.1 p.2) b).get r c).isMine = (b.get r c).isMine ∧
    ((ps.foldl (fun b p => calculateCell b p.1 p.2) b).get r c).state = (b.get r c).state ∧
    ((ps.foldl (fun b p => calculateCell b p.1 p.2) b).get r c).adjacentMines =
      if (r, c) ∈ ps ∧ isValid r c = true ∧ (b.get r c).isMine = false then
        (mineNeighbours b r c : Int)
      else (b.get r c).adjacentMines := by
  induction ps generalizing b with
  | nil => simp
  | cons p ps ih =>
    rw [List.foldl_cons]
    obtain ⟨i1, i2, i3⟩ := ih (calculateCell b p.1 p.2)
    have hmine : ∀ x y, ((calculateCell b p.1 p.2).get x y).isMine = (b.get x y).isMine := by
      intro x y
      rw [calculateCell_get]
      split
      · next h => rw [h.2.1, h.2.2]
      · rfl
    have hstate : ((calculateCell b p.1 p.2).get r c).state = (b.get r c).state := by
      rw [calculateCell_get]
      split
      · next h => rw [h.2.1, h.2.2]
      · rfl
    refine ⟨by rw [i1, hmine], by rw [i2, hstate], ?_⟩
    rw [i3, hmine, mineNeighbours_congr hmine, calculateCell_get]
    by_cases hin : (r, c) ∈ ps ∧ isValid r c = true ∧ (b.get r c).isMine = false
    · have : (r, c) ∈ p :: ps ∧ isValid r c = true ∧ (b.get r c).isMine = false :=
        ⟨List.mem_cons_of_mem _ hin.1, hin.2⟩
      rw [if_pos hin, if_pos this]
    · rw [if_neg hin]
      by_cases hp : (isValid p.1 p.2 = true ∧ (b.get p.1 p.2).isMine = false) ∧ r = p.1 ∧ c = p.2
      · have hrc : (r, c) = p := Prod.ext hp.2.1 hp.2.2
        subst hrc
        have : (r, c) ∈ (r, c) :: ps ∧ isValid r c = true ∧ (b.get r c).isMine = false :=
          ⟨List.mem_cons_self _ _, hp.1⟩
        rw [if_pos hp, if_pos this]
      · have : ¬ ((r, c) ∈ p :: ps ∧ isValid r c = true ∧ (b.get r c).isMine = false) := by
          rintro ⟨hmem, hv, hm⟩
          rcases List.mem_cons.1 hmem with h | h
          · subst h
            exact hp ⟨⟨hv, hm⟩, rfl, rfl⟩
          · exact hin ⟨h, hv, hm⟩
        rw [if_neg hp, if_neg this]

theorem calculateAdjacents_eq (b : Board) :
    calculateAdjacents b = cells.foldl (fun b p => calculateCell b p.1 p.2) b :=
  foldl_nested (fun b r c => calculateCell b r c) indices indices b

theorem calculateAdjacents_isMine (b : Board) (r c : Int) :
    ((calculateAdjacents b).get r c).isMine = (b.get r c).isMine := by
  rw [calculateAdjacents_eq]
  exact (calculateCells_get cells b r c).1

theorem calculateAdjacents_state (b : Board) (r c : Int) :
    ((calculateAdjacents b).get r c).state = (b.get r c).state := by
  rw [calculateAdjacents_eq]
  exact (calculateCells_get cells b r c).2.1

theorem calculateAdjacents_adjacent (b : Board) (r c : Int) :
    ((calculateAdjacents b).get r c).adjacentMines =
      if isValid r c = true ∧ (b.get r c).isMine = false then (mineNeighbours b r c : Int)
      else (b.get r c).adjacentMines := by
  rw [calculateAdjacents_eq, (calculateCells_get cells b r c).2.2]
  by_cases hv : isValid r c = true
  · have : (r, c) ∈ cells := (mem_cells (r, c)).2 hv
    simp only [this, true_and]
  · simp [hv]

theorem exactAdjacency_calculateAdjacents (b : Board) : ExactAdjacency (calculateAdjacents b) := by
  intro r c hv hm
  rw [calculateAdjacents_isMine] at hm
  rw [calculateAdjacents_adjacent, if_pos ⟨hv, hm⟩,
    mineNeighbours_congr (calculateAdjacents_isMine b)]

theorem mineCount_calculateAdjacents (b : Board) :
    mineCount (calculateAdjacents b) = mineCount b := by
  simp only [mineCount, calculateAdjacents_isMine]

theorem mineNeighbours_corner (b : Board) :
    mineNeighbours b 0 0 =
      (if (b.get 0 1).isMine = true then 1 else 0) + (if (b.get 1 0).isMine = true then 1 else 0)
        + (if (b.get 1 1).isMine = true then 1 else 0) := by
  have h1 : isValid (-1) (-1) = false := by decide
  have h2 : isValid (-1) 0 = false := by decide
  have h3 : isValid (-1) 1 = false := by decide
  have h4 : isValid 0 (-1) = false := by decide
  have h5 : isValid 0 1 = true := by decide
  have h6 : isValid 1 (-1) = false := by decide
  have h7 : isValid 1 0 = true := by decide
  have h8 : isValid 1 1 = true := by decide
  simp only [mineNeighbours, offsets_eq, directions, List.countP_cons, List.countP_nil, zero_add,
    Int.zero_add, h1, h2, h3, h4, h5, h6, h7, h8, Bool.false_and, Bool.true_and]
  simp only [Bool.false_eq_true, if_false, Nat.add_zero, Nat.zero_add]
  omega

/-! ## openCell: unfolding the recursion -/

theorem openCellFuel_succ (fuel : Nat) (s : State) (row col : Int) :
    openCellFuel (fuel + 1) s row col =
      if isValid row col = false then some (true, s)
      else if s.visible (row, col) = CellState.Revealed then some (true, s)
      else if (s.realBoard.get row col).isMine = true then some (false, s.reveal row col)
      else if (s.realBoard.get row col).adjacentMines = 0 then
        (directions.foldlM
          (fun st d =>
            if cascadeGuard st row col d = true then
              (openCellFuel fuel st (row + d.1) (col + d.2)).map Prod.snd
            else some st)
          (s.reveal row col).countDown).map fun st => (true, st)
      else some (true, (s.reveal row col).countDown) := by
  by_cases hv : isValid row col = true
  · simp only [openCellFuel, hv, Bool.not_true, Bool.false_eq_true, if_false]
    rfl
  · have hv' : isValid row col = false := by simpa using hv
    simp only [openCellFuel, hv', Bool.not_false, if_true]

theorem cascadeLoop_of_foldlM (fuel : Nat) (row col : Int) (ds : List (Int × Int))
    (st s' : State)
    (h : ds.foldlM
      (fun st d =>
        if cascadeGuard st row col d = true then
          (openCellFuel fuel st (row + d.1) (col + d.2)).map Prod.snd
        else some st) st = some s') :
    CascadeLoop (fun st r c b st1 => openCellFuel fuel st r c = some (b, st1)) row col ds st s' := by
  induction ds generalizing st with
  | nil =>
    simp only [List.foldlM_nil, pure, Option.some.injEq] at h
    subst h
    exact CascadeLoop.done _
  | cons d ds ih =>
    rw [List.foldlM_cons] at h
    by_cases hg : cascadeGuard st row col d = true
    · simp only [hg, if_true] at h
      cases hc : openCellFuel fuel st (row + d.1) (col + d.2) with
      | none => simp [hc] at h
      | some res =>
        obtain ⟨b, st1⟩ := res
        simp only [hc, Option.map_some', Option.some_bind, bind] at h
        exact CascadeLoop.call hg hc (ih _ h)
    · have hg' : cascadeGuard st row col d = false := by simpa using hg
      simp only [hg', Bool.false_eq_true, if_false, Option.some_bind, bind] at h
      exact CascadeLoop.skip hg' (ih _ h)

theorem CascadeLoop.imp {R R' : State → Int → Int → Bool → State → Prop}
    (hR : ∀ st r c b st1, R st r c b st1 → R' st r c b st1) {row col : Int}
    {ds : List (Int × Int)} {st s' : State} (h : CascadeLoop R row col ds st s') :
    CascadeLoop R' row col ds st s' := by
  induction h with
  | done s => exact CascadeLoop.done s
  | skip hg _ ih => exact CascadeLoop.skip hg ih
  | call hg hr _ ih => exact CascadeLoop.call hg (hR _ _ _ _ _ hr) ih

/-- Induction over the calls of `openCell`: a property of (state, row, col, result,
final state) that holds in the four cases without recursion, and that holds for a
call with a cascade when it holds for every recursive call of the loop, holds for
every call that returns. -/
theorem openCellFuel_induct (Q : State → Int → Int → Bool → State → Prop)
    (hout : ∀ s row col, isValid row col = false → Q s row col true s)
    (hrev : ∀ s row col, isValid row col = true → s.visible (row, col) = CellState.Revealed →
      Q s row col true s)
    (hmine : ∀ s row col, isValid row col = true → s.visible (row, col) ≠ CellState.Revealed →
      (s.realBoard.get row col).isMine = true → Q s row col false (s.reveal row col))
    (hnum : ∀ s row col, isValid row col = true → s.visible (row, col) ≠ CellState.Revealed →
      (s.realBoard.get row col).isMine = false → (s.realBoard.get row col).adjacentMines ≠ 0 →
      Q s row col true (s.reveal row col).countDown)
    (hzero : ∀ s row col s', isValid row col = true →
      s.visible (row, col) ≠ CellState.Revealed →
      (s.realBoard.get row col).isMine = false → (s.realBoard.get row col).adjacentMines = 0 →
      CascadeLoop (fun st r c b st1 =>
        (∃ fuel, openCellFuel fuel st r c = some (b, st1)) ∧ Q st r c b st1)
        row col directions (s.reveal row col).countDown s' →
      Q s row col true s')
    (fuel : Nat) (s : State) (row col : Int) (b : Bool) (s' : State)
    (h : openCellFuel fuel s row col = some (b, s')) : Q s row col b s' := by
  induction fuel generalizing s row col b s' with
  | zero => simp [openCellFuel] at h
  | succ fuel ih =>
    rw [openCellFuel_succ] at h
    by_cases hv : isValid row col = false
    · rw [if_pos hv] at h
      obtain ⟨rfl, rfl⟩ := Prod.mk.inj (Option.some.inj h)
      exact hout _ _ _ hv
    · rw [if_neg hv] at h
      have hv' : isValid row col = true := by simpa using hv
      by_cases hr : s.visible (row, col) = CellState.Revealed
      · rw [if_pos hr] at h
        obtain ⟨rfl, rfl⟩ := Prod.mk.inj (Option.some.inj h)
        exact hrev _ _ _ hv' hr
      · rw [if_neg hr] at h
        by_cases hm : (s.realBoard.get row col).isMine = true
        · rw [if_pos hm] at h
          obtain ⟨rfl, rfl⟩ := Prod.mk.inj (Option.some.inj h)
          exact hmine _ _ _ hv' hr hm
        · rw [if_neg hm] at h
          have hm' : (s.realBoard.get row col).isMine = false := by simpa using hm
          by_cases hz : (s.realBoard.get row col).adjacentMines = 0
          · rw [if_pos hz] at h
            cases hf : directions.foldlM
              (fun st d =>
                if cascadeGuard st row col d = true then
                  (openCellFuel fuel st (row + d.1) (col + d.2)).map Prod.snd
                else some st)
              (s.reveal row col).countDown with
            | none => simp [hf] at h
            | some st =>
              rw [hf] at h
              obtain ⟨rfl, rfl⟩ := Prod.mk.inj (Option.some.inj h)
              apply hzero _ _ _ _ hv' hr hm' hz
              exact (cascadeLoop_of_foldlM fuel row col directions _ _ hf).imp
                (fun st r c b st1 hc => ⟨⟨fuel, hc⟩, ih _ _ _ _ _ hc⟩)
          · rw [if_neg hz] at h
            obtain ⟨rfl, rfl⟩ := Prod.mk.inj (Option.some.inj h)
            exact hnum _ _ _ hv' hr hm' hz

/-! ## openCell: what a call changes -/

theorem State.reveal_get (s : State) (row col r c : Int) :
    (s.reveal row col).playerBoard.get r c =
      if isValid row col = true ∧ r = row ∧ c = col then
        { s.playerBoard.get row col with state := CellState.Revealed }
      else s.playerBoard.get r c :=
  Board.get_setState _ _ _ _ _ _

theorem State.visible_reveal (s : State) (row col : Int) (p : Int × Int) :
    (s.reveal row col).visible p =
      if isValid row col = true ∧ p = (row, col) then CellState.Revealed else s.visible p := by
  obtain ⟨r, c⟩ := p
  simp only [State.visible, State.reveal_get, Prod.mk.injEq]
  split <;> rfl

theorem safeLeft_reveal_mine (s : State) (row col : Int)
    (hm : (s.realBoard.get row col).isMine = true) :
    safeLeft (s.reveal row col) = safeLeft s := by
  apply countP_same
  intro y _
  rw [State.visible_reveal]
  by_cases hy : isValid row col = true ∧ y = (row, col)
  · obtain ⟨_, rfl⟩ := hy
    show (!(s.realBoard.get row col).isMine && _) = (!(s.realBoard.get row col).isMine && _)
    rw [hm]
    rfl
  · rw [if_neg hy]
    rfl

theorem safeLeft_reveal_safe (s : State) (row col : Int) (hv : isValid row col = true)
    (hr : s.visible (row, col) ≠ CellState.Revealed)
    (hm : (s.realBoard.get row col).isMine = false) :
    safeLeft s = safeLeft (s.reveal row col) + 1 := by
  apply countP_flip cells cells_nodup (row, col) ((mem_cells _).2 hv)
  · intro y hy
    have : ¬ (isValid row col = true ∧ y = (row, col)) := fun h => hy h.2
    rw [State.visible_reveal, if_neg this]
    rfl
  · rw [State.visible_reveal, if_pos ⟨hv, rfl⟩]
    simp
  · show (!(s.realBoard.get row col).isMine && _) = true
    rw [hm]
    simpa using hr

theorem unrevealed_reveal (s : State) (row col : Int) (hv : isValid row col = true)
    (hr : s.visible (row, col) ≠ CellState.Revealed) :
    unrevealed s = unrevealed (s.reveal row col) + 1 := by
  apply countP_flip cells cells_nodup (row, col) ((mem_cells _).2 hv)
  · intro y hy
    have : ¬ (isValid row col = true ∧ y = (row, col)) := fun h => hy h.2
    rw [State.visible_reveal, if_neg this]
  · rw [State.visible_reveal, if_pos ⟨hv, rfl⟩]
    simp
  · simpa using hr

theorem Cascade.refl (root : Int × Int) (s : State) : Cascade root s s :=
  ⟨rfl, rfl, rfl, fun _ _ => Or.inl rfl, by omega⟩

theorem Cascade.visible_cases {root : Int × Int} {s s' : State} (h : Cascade root s s')
    (p : Int × Int) :
    s'.visible p = s.visible p ∨
      (s'.visible p = CellState.Revealed ∧ isValid p.1 p.2 = true ∧
        s.visible p ≠ CellState.Revealed ∧ (p = root ∨ s.visible p = CellState.Hidden)) := by
  rcases h.2.2.2.1 p.1 p.2 with e | ⟨hv, hn, hroot, e⟩
  · left
    simp only [State.visible, e]
  · right
    refine ⟨?_, hv, hn, hroot⟩
    simp only [State.visible, e]

theorem Cascade.revealed_mono {root : Int × Int} {s s' : State} (h : Cascade root s s')
    {p : Int × Int} (hp : s.visible p = CellState.Revealed) : s'.visible p = CellState.Revealed := by
  rcases h.visible_cases p with e | e
  · rw [e, hp]
  · exact e.1

theorem Cascade.hidden_of_hidden {root : Int × Int} {s s' : State} (h : Cascade root s s')
    {p : Int × Int} (hp : s'.visible p = CellState.Hidden) : s.visible p = CellState.Hidden := by
  rcases h.visible_cases p with e | e
  · rw [← e, hp]
  · rw [e.1] at hp
    cases hp

theorem Cascade.unrevealed_le {root : Int × Int} {s s' : State} (h : Cascade root s s') :
    unrevealed s' ≤ unrevealed s := by
  apply List.countP_mono_left
  intro p _ hp
  simp only [decide_eq_true_eq] at hp ⊢
  intro hs
  exact hp (h.revealed_mono hs)

theorem Cascade.reveal_mine (s : State) (row col : Int) (hv : isValid row col = true)
    (hr : s.visible (row, col) ≠ CellState.Revealed)
    (hm : (s.realBoard.get row col).isMine = true) :
    Cascade (row, col) s (s.reveal row col) := by
  refine ⟨rfl, rfl, rfl, ?_, ?_⟩
  · intro r c
    rw [State.reveal_get]
    by_cases h : isValid row col = true ∧ r = row ∧ c = col
    · obtain ⟨_, rfl, rfl⟩ := h
      right
      exact ⟨hv, hr, Or.inl rfl, by simp [hv]⟩
    · left
      rw [if_neg h]
  · rw [safeLeft_reveal_mine s row col hm]
    show s.movesLeft - s.movesLeft = _
    omega

theorem Cascade.reveal_safe (s : State) (row col : Int) (hv : isValid row col = true)
    (hr : s.visible (row, col) ≠ CellState.Revealed)
    (hm : (s.realBoard.get row col).isMine = false) :
    Cascade (row, col) s (s.reveal row col).countDown := by
  refine ⟨rfl, rfl, rfl, ?_, ?_⟩
  · intro r c
    by_cases h : isValid row col = true ∧ r = row ∧ c = col
    · obtain ⟨_, rfl, rfl⟩ := h
      right
      refine ⟨hv, hr, Or.inl rfl, ?_⟩
      show (s.reveal r c).playerBoard.get r c = _
      rw [State.reveal_get]
      simp [hv]
    · left
      show (s.reveal row col).playerBoard.get r c = _
      rw [State.reveal_get, if_neg h]
  · have h1 := safeLeft_reveal_safe s row col hv hr hm
    have h2 : safeLeft (s.reveal row col).countDown = safeLeft (s.reveal row col) := rfl
    rw [h2, h1]
    show s.movesLeft - (s.movesLeft - 1) = _
    push_cast
    omega

theorem Cascade.trans {root n : Int × Int} {s st st1 : State} (h1 : Cascade root s st)
    (h2 : Cascade n st st1) (hn : st.visible n = CellState.Hidden) : Cascade root s st1 := by
  refine ⟨h2.1.trans h1.1, h2.2.1.trans h1.2.1, h2.2.2.1.trans h1.2.2.1, ?_, ?_⟩
  · intro r c
    rcases h2.2.2.2.1 r c with e2 | ⟨hv, hne, hroot, e2⟩
    · rw [e2]
      exact h1.2.2.2.1 r c
    · have hh : (st.playerBoard.get r c).state = CellState.Hidden := by
        rcases hroot with h | h
        · rw [← h] at hn
          exact hn
        · exact h
      rcases h1.2.2.2.1 r c with e1 | ⟨_, _, _, e1⟩
      · right
        rw [e1] at hh e2
        refine ⟨hv, ?_, Or.inr hh, e2⟩
        rw [hh]
        decide
      · rw [e1] at hh
        cases hh
  · have a1 := h1.2.2.2.2
    have a2 := h2.2.2.2.2
    omega

theorem cascadeLoop_cascade {X : State → Int → Int → Bool → State → Prop} {root : Int × Int}
    {s : State} {row col : Int} {ds : List (Int × Int)} {st s' : State}
    (h : CascadeLoop (fun st r c b st1 => X st r c b st1 ∧ OpenPost st r c b st1) row col ds st s')
    (hs : Cascade root s st) : Cascade root s s' := by
  induction h with
  | done _ => exact hs
  | skip _ _ ih => exact ih hs
  | call hg hr _ ih =>
    apply ih
    apply hs.trans hr.2.1
    simp only [cascadeGuard, Bool.and_eq_true, decide_eq_true_eq] at hg
    exact hg.2

theorem openCellFuel_post (fuel : Nat) (s : State) (row col : Int) (b : Bool) (s' : State)
    (h : openCellFuel fuel s row col = some (b, s')) : OpenPost s row col b s' := by
  refine openCellFuel_induct OpenPost ?_ ?_ ?_ ?_ ?_ fuel s row col b s' h
  · intro s row col hv
    exact ⟨Cascade.refl _ _, by simp [hv], by simp [hv]⟩
  · intro s row col hv hr
    exact ⟨Cascade.refl _ _, fun _ => hr, by simp [hr]⟩
  · intro s row col hv hr hm
    refine ⟨Cascade.reveal_mine s row col hv hr hm, fun _ => ?_, by simp [hv, hr, hm]⟩
    rw [State.visible_reveal, if_pos ⟨hv, rfl⟩]
  · intro s row col hv hr hm hz
    refine ⟨Cascade.reveal_safe s row col hv hr hm, fun _ => ?_, by simp [hm]⟩
    show (s.reveal row col).visible (row, col) = _
    rw [State.visible_reveal, if_pos ⟨hv, rfl⟩]
  · intro s row col s' hv hr hm hz hloop
    have hc := cascadeLoop_cascade hloop (Cascade.reveal_safe s row col hv hr hm)
    refine ⟨hc, fun _ => ?_, by simp [hm]⟩
    apply (cascadeLoop_cascade hloop (Cascade.refl (row, col) _)).revealed_mono
    show (s.reveal row col).visible (row, col) = _
    rw [State.visible_reveal, if_pos ⟨hv, rfl⟩]

/-! ## openCell: the recursion depth suffices -/

theorem unrevealed_pos_of_hidden (s : State) (p : Int × Int) (hv : isValid p.1 p.2 = true)
    (hh : s.visible p = CellState.Hidden) : 0 < unrevealed s := by
  apply List.countP_pos_iff.2
  refine ⟨p, (mem_cells p).2 hv, ?_⟩
  rw [hh]
  decide

theorem cascade_foldlM_total (fuel : Nat) (row col : Int)
    (ih : ∀ s r c, 1 ≤ fuel → unrevealed s ≤ fuel → ∃ b s', openCellFuel fuel s r c = some (b, s'))
    (ds : List (Int × Int)) (st : State) (hst : unrevealed st ≤ fuel) :
    ∃ s', ds.foldlM
      (fun st d =>
        if cascadeGuard st row col d = true then
          (openCellFuel fuel st (row + d.1) (col + d.2)).map Prod.snd
        else some st) st = some s' := by
  induction ds generalizing st with
  | nil => exact ⟨st, rfl⟩
  | cons d ds ihd =>
    rw [List.foldlM_cons]
    by_cases hg : cascadeGuard st row col d = true
    · have hg' := hg
      simp only [cascadeGuard, Bool.and_eq_true, decide_eq_true_eq] at hg'
      have hpos := unrevealed_pos_of_hidden st (row + d.1, col + d.2) hg'.1 hg'.2
      obtain ⟨b, st1, hc⟩ := ih st (row + d.1) (col + d.2) (by omega) hst
      have hle := (openCellFuel_post _ _ _ _ _ _ hc).1.unrevealed_le
      obtain ⟨s', hs'⟩ := ihd st1 (by omega)
      refine ⟨s', ?_⟩
      simp only [hg, if_true, hc, Option.map_some', Option.some_bind, bind]
      exact hs'
    · have hg' : cascadeGuard st row col d = false := by simpa using hg
      obtain ⟨s', hs'⟩ := ihd st hst
      refine ⟨s', ?_⟩
      simp only [hg', Bool.false_eq_true, if_false, Option.some_bind, bind]
      exact hs'

theorem openCellFuel_total (fuel : Nat) (s : State) (row col : Int) (h1 : 1 ≤ fuel)
    (h2 : unrevealed s ≤ fuel) : ∃ b s', openCellFuel fuel s row col = some (b, s') := by
  induction fuel generalizing s row col with
  | zero => omega
  | succ fuel ih =>
    rw [openCellFuel_succ]
    by_cases hv : isValid row col = false
    · exact ⟨true, s, by rw [if_pos hv]⟩
    · rw [if_neg hv]
      have hv' : isValid row col = true := by simpa using hv
      by_cases hr : s.visible (row, col) = CellState.Revealed
      · exact ⟨true, s, by rw [if_pos hr]⟩
      · rw [if_neg hr]
        by_cases hm : (s.realBoard.get row col).isMine = true
        · exact ⟨false, _, by rw [if_pos hm]⟩
        · rw [if_neg hm]
          by_cases hz : (s.realBoard.get row col).adjacentMines = 0
          · rw [if_pos hz]
            have hu := unrevealed_reveal s row col hv' hr
            have hu' : unrevealed (s.reveal row col).countDown = unrevealed (s.reveal row col) := rfl
            obtain ⟨s', hs'⟩ := cascade_foldlM_total fuel row col (fun s r c => ih s r c)
              directions (s.reveal row col).countDown (by omega)
            exact ⟨true, s', by rw [hs']; rfl⟩
          · exact ⟨true, _, by rw [if_neg hz]⟩

theorem openCell_post (s : State) (row col : Int) :
    ∃ b s', openCell s row col = some (b, s') ∧ OpenPost s row col b s' := by
  have hle : unrevealed s ≤ 100 := by
    have := List.countP_le_length (fun p => decide (s.visible p ≠ CellState.Revealed)) (l := cells)
    rw [cells_length] at this
    exact this
  obtain ⟨b, s', h⟩ := openCellFuel_total 100 s row col (by omega) hle
  exact ⟨b, s', h, openCellFuel_post _ _ _ _ _ _ h⟩

/-! ## openCell: the cells that a cascade reveals -/

theorem adjacent8_of_direction (p d : Int × Int) (hd : d ∈ directions) :
    Adjacent8 p (p.1 + d.1, p.2 + d.2) := by
  simp only [directions, List.mem_cons, List.mem_singleton, List.not_mem_nil, or_false] at hd
  unfold Adjacent8
  refine ⟨?_, ?_⟩
  · intro h
    have h1 := congrArg Prod.fst h
    have h2 := congrArg Prod.snd h
    simp only at h1 h2
    rcases hd with rfl | rfl | rfl | rfl | rfl | rfl | rfl | rfl <;> simp at h1 h2
  · rcases hd with rfl | rfl | rfl | rfl | rfl | rfl | rfl | rfl <;> simp

theorem direction_of_adjacent8 {p q : Int × Int} (h : Adjacent8 p q) :
    ∃ d ∈ directions, q = (p.1 + d.1, p.2 + d.2) := by
  obtain ⟨hne, h1, h2, h3, h4⟩ := h
  refine ⟨(q.1 - p.1, q.2 - p.2), ?_, ?_⟩
  · have hr : q.1 - p.1 = -1 ∨ q.1 - p.1 = 0 ∨ q.1 - p.1 = 1 := by omega
    have hc : q.2 - p.2 = -1 ∨ q.2 - p.2 = 0 ∨ q.2 - p.2 = 1 := by omega
    have hz : ¬ (q.1 - p.1 = 0 ∧ q.2 - p.2 = 0) := by
      rintro ⟨e1, e2⟩
      apply hne
      apply Prod.ext <;> omega
    rcases hr with e1 | e1 | e1 <;> rcases hc with e2 | e2 | e2 <;> rw [e1, e2] <;>
      first
        | decide
        | exact absurd ⟨e1, e2⟩ hz
  · apply Prod.ext <;> simp

theorem Reach.mono {s st : State} (hreal : st.realBoard = s.realBoard)
    (hh : ∀ q, st.visible q = CellState.Hidden → s.visible q = CellState.Hidden)
    {p x : Int × Int} (h : Reach st p x) : Reach s p x := by
  induction h with
  | here p => exact Reach.here p
  | next hz hv ha hq _ ih =>
    refine Reach.next ?_ hv ha (hh _ hq) ih
    simpa only [State.zeroSafe, hreal] using hz

theorem cascadeLoop_mono {Q : State → Int → Int → Bool → State → Prop} {root : Int × Int}
    {s : State} {row col : Int} {ds : List (Int × Int)} {st s' : State}
    (h : CascadeLoop (fun st r c b st1 =>
      (∃ fuel, openCellFuel fuel st r c = some (b, st1)) ∧ Q st r c b st1) row col ds st s')
    (hs : Cascade root s st) : Cascade root s s' := by
  have h' : CascadeLoop (fun st r c b st1 => True ∧ OpenPost st r c b st1) row col ds st s' := by
    apply h.imp
    rintro st r c b st1 ⟨⟨fuel, hc⟩, -⟩
    exact ⟨trivial, openCellFuel_post _ _ _ _ _ _ hc⟩
  exact cascadeLoop_cascade h' hs

theorem cascadeGuard_iff (st : State) (row col : Int) (d : Int × Int) :
    cascadeGuard st row col d = true ↔
      isValid (row + d.1) (col + d.2) = true ∧
        st.visible (row + d.1, col + d.2) = CellState.Hidden := by
  simp only [cascadeGuard, Bool.and_eq_true, decide_eq_true_eq, State.visible]

theorem sound_loop {s : State} {row col : Int} (hzs : s.zeroSafe (row, col))
    {ds : List (Int × Int)} {st s' : State}
    (hloop : CascadeLoop (fun st r c b st1 =>
      (∃ fuel, openCellFuel fuel st r c = some (b, st1)) ∧
        ∀ x, st1.visible x = CellState.Revealed → st.visible x ≠ CellState.Revealed →
          Reach st (r, c) x) row col ds st s')
    (hsub : ∀ d ∈ ds, d ∈ directions) (hcas : Cascade (row, col) s st)
    (hstart : ∀ x, st.visible x = CellState.Revealed → s.visible x ≠ CellState.Revealed →
      Reach s (row, col) x) :
    ∀ x, s'.visible x = CellState.Revealed → s.visible x ≠ CellState.Revealed →
      Reach s (row, col) x := by
  induction hloop with
  | done _ => exact hstart
  | skip _ _ ih => exact ih (fun d hd => hsub d (List.mem_cons_of_mem _ hd)) hcas hstart
  | @call d ds st st1 s' b hg hcall _ ih =>
    obtain ⟨⟨fuel, hc⟩, hq⟩ := hcall
    rw [cascadeGuard_iff] at hg
    have hpost := openCellFuel_post _ _ _ _ _ _ hc
    have hcas1 : Cascade (row, col) s st1 := hcas.trans hpost.1 hg.2
    apply ih (fun d hd => hsub d (List.mem_cons_of_mem _ hd)) hcas1
    intro x hx' hx
    by_cases hst : st.visible x = CellState.Revealed
    · exact hstart x hst hx
    · have hr1 : Reach st (row + d.1, col + d.2) x := hq x hx' hst
      have hr2 : Reach s (row + d.1, col + d.2) x :=
        Reach.mono hcas.1 (fun q hq => hcas.hidden_of_hidden hq) hr1
      exact Reach.next hzs hg.1
        (adjacent8_of_direction (row, col) d (hsub d (List.mem_cons_self _ _)))
        (hcas.hidden_of_hidden hg.2) hr2

/-- The property of a call of `openCell` that every cell it reveals is reached by a
cascade path from the cell of the call. -/
theorem openCellFuel_sound (fuel : Nat) (s : State) (row col : Int) (b : Bool) (s' : State)
    (h : openCellFuel fuel s row col = some (b, s')) (x : Int × Int)
    (hx' : s'.visible x = CellState.Revealed) (hx : s.visible x ≠ CellState.Revealed) :
    Reach s (row, col) x := by
  revert x
  refine openCellFuel_induct
    (fun s row col _ s' => ∀ x, s'.visible x = CellState.Revealed →
      s.visible x ≠ CellState.Revealed → Reach s (row, col) x) ?_ ?_ ?_ ?_ ?_ fuel s row col b s' h
  · intro s row col _ x hx' hx
    exact absurd hx' hx
  · intro s row col _ _ x hx' hx
    exact absurd hx' hx
  · intro s row col hv _ _ x hx' hx
    rw [State.visible_reveal] at hx'
    by_cases hc : isValid row col = true ∧ x = (row, col)
    · rw [hc.2]
      exact Reach.here _
    · rw [if_neg hc] at hx'
      exact absurd hx' hx
  · intro s row col hv _ _ _ x hx' hx
    have hx'' : (s.reveal row col).visible x = CellState.Revealed := hx'
    rw [State.visible_reveal] at hx''
    by_cases hc : isValid row col = true ∧ x = (row, col)
    · rw [hc.2]
      exact Reach.here _
    · rw [if_neg hc] at hx''
      exact absurd hx'' hx
  · intro s row col s' hv hr hm hz hloop
    apply sound_loop ⟨hm, hz⟩ hloop (fun _ h => h) (Cascade.reveal_safe s row col hv hr hm)
    intro x hx' hx
    have hx'' : (s.reveal row col).visible x = CellState.Revealed := hx'
    rw [State.visible_reveal] at hx''
    by_cases hc : isValid row col = true ∧ x = (row, col)
    · rw [hc.2]
      exact Reach.here _
    · rw [if_neg hc] at hx''
      exact absurd hx'' hx

theorem closed_loop {s : State} {row col : Int} {ds : List (Int × Int)} {st s' : State}
    (hloop : CascadeLoop (fun st r c b st1 =>
      (∃ fuel, openCellFuel fuel st r c = some (b, st1)) ∧
        ∀ y z, st1.visible y = CellState.Revealed → st.visible y ≠ CellState.Revealed →
          st.zeroSafe y → isValid z.1 z.2 = true → Adjacent8 y z →
          st.visible z = CellState.Hidden → st1.visible z = CellState.Revealed)
      row col ds st s')
    (hcas : Cascade (row, col) s st)
    (hA : ∀ y z, y ≠ (row, col) → st.visible y = CellState.Revealed →
      s.visible y ≠ CellState.Revealed → s.zeroSafe y → isValid z.1 z.2 = true →
      Adjacent8 y z → s.visible z = CellState.Hidden → st.visible z = CellState.Revealed) :
    (∀ y z, y ≠ (row, col) → s'.visible y = CellState.Revealed →
      s.visible y ≠ CellState.Revealed → s.zeroSafe y → isValid z.1 z.2 = true →
      Adjacent8 y z → s.visible z = CellState.Hidden → s'.visible z = CellState.Revealed) ∧
    (∀ d ∈ ds, isValid (row + d.1) (col + d.2) = true →
      s.visible (row + d.1, col + d.2) = CellState.Hidden →
      s'.visible (row + d.1, col + d.2) = CellState.Revealed) := by
  induction hloop with
  | done _ =>
    refine ⟨hA, ?_⟩
    intro d hd
    cases hd
  | @skip d ds st s' hg hrest ih =>
    obtain ⟨i1, i2⟩ := ih hcas hA
    refine ⟨i1, ?_⟩
    intro d' hd' hv hh
    rcases List.mem_cons.1 hd' with e | e
    · subst e
      have hng : ¬ (cascadeGuard st row col d' = true) := by simp [hg]
      rw [cascadeGuard_iff] at hng
      have hst : st.visible (row + d'.1, col + d'.2) = CellState.Revealed := by
        rcases hcas.visible_cases (row + d'.1, col + d'.2) with e | e
        · rw [hh] at e
          exact absurd ⟨hv, e⟩ hng
        · exact e.1
      exact (cascadeLoop_mono hrest (Cascade.refl (row, col) st)).revealed_mono hst
    · exact i2 d' e hv hh
  | @call d ds st st1 s' b hg hcall hrest ih =>
    obtain ⟨⟨fuel, hc⟩, hq⟩ := hcall
    rw [cascadeGuard_iff] at hg
    have hpost := openCellFuel_post _ _ _ _ _ _ hc
    have hcas1 : Cascade (row, col) s st1 := hcas.trans hpost.1 hg.2
    have hA1 : ∀ y z, y ≠ (row, col) → st1.visible y = CellState.Revealed →
        s.visible y ≠ CellState.Revealed → s.zeroSafe y → isValid z.1 z.2 = true →
        Adjacent8 y z → s.visible z = CellState.Hidden →
        st1.visible z = CellState.Revealed := by
      intro y z hy hy1 hys hyz hzv hadj hzs
      by_cases hyst : st.visible y = CellState.Revealed
      · exact hpost.1.revealed_mono (hA y z hy hyst hys hyz hzv hadj hzs)
      · rcases hcas.visible_cases z with e | e
        · rw [hzs] at e
          have hyz' : st.zeroSafe y := by
            simpa only [State.zeroSafe, hcas.1] using hyz
          exact hq y z hy1 hyst hyz' hzv hadj e
        · exact hpost.1.revealed_mono e.1
    obtain ⟨i1, i2⟩ := ih hcas1 hA1
    refine ⟨i1, ?_⟩
    intro d' hd' hv hh
    rcases List.mem_cons.1 hd' with e | e
    · subst e
      exact (cascadeLoop_mono hrest (Cascade.refl (row, col) st1)).revealed_mono (hpost.2.1 hv)
    · exact i2 d' e hv hh

/-- The property of a call of `openCell` that, around every zero-count non-mine cell
it reveals, every neighbour that was `Hidden` is revealed too. -/
theorem openCellFuel_closed (fuel : Nat) (s : State) (row col : Int) (b : Bool) (s' : State)
    (h : openCellFuel fuel s row col = some (b, s')) (y z : Int × Int)
    (hy' : s'.visible y = CellState.Revealed) (hy : s.visible y ≠ CellState.Revealed)
    (hyz : s.zeroSafe y) (hzv : isValid z.1 z.2 = true) (hadj : Adjacent8 y z)
    (hz : s.visible z = CellState.Hidden) : s'.visible z = CellState.Revealed := by
  revert y z
  refine openCellFuel_induct
    (fun s row col _ s' => ∀ y z, s'.visible y = CellState.Revealed →
      s.visible y ≠ CellState.Revealed → s.zeroSafe y → isValid z.1 z.2 = true →
      Adjacent8 y z → s.visible z = CellState.Hidden → s'.visible z = CellState.Revealed)
    ?_ ?_ ?_ ?_ ?_ fuel s row col b s' h
  · intro s row col _ y z hy' hy
    exact absurd hy' hy
  · intro s row col _ _ y z hy' hy
    exact absurd hy' hy
  · intro s row col hv _ hm y z hy' hy hyz
    rw [State.visible_reveal] at hy'
    by_cases hc : isValid row col = true ∧ y = (row, col)
    · rw [hc.2] at hyz
      rw [hyz.1] at hm
      cases hm
    · rw [if_neg hc] at hy'
      exact absurd hy' hy
  · intro s row col hv _ _ hnz y z hy' hy hyz
    have hy'' : (s.reveal row col).visible y = CellState.Revealed := hy'
    rw [State.visible_reveal] at hy''
    by_cases hc : isValid row col = true ∧ y = (row, col)
    · rw [hc.2] at hyz
      exact absurd hyz.2 hnz
    · rw [if_neg hc] at hy''
      exact absurd hy'' hy
  · intro s row col s' hv hr hm hz hloop
    have hstart : ∀ y z, y ≠ (row, col) →
        (s.reveal row col).countDown.visible y = CellState.Revealed →
        s.visible y ≠ CellState.Revealed → s.zeroSafe y → isValid z.1 z.2 = true →
        Adjacent8 y z → s.visible z = CellState.Hidden →
        (s.reveal row col).countDown.visible z = CellState.Revealed := by
      intro y z hne hy' hy
      have hy'' : (s.reveal row col).visible y = CellState.Revealed := hy'
      rw [State.visible_reveal] at hy''
      have hc : ¬ (isValid row col = true ∧ y = (row, col)) := fun h => hne h.2
      rw [if_neg hc] at hy''
      exact absurd hy'' hy
    obtain ⟨i1, i2⟩ := closed_loop hloop (Cascade.reveal_safe s row col hv hr hm) hstart
    intro y z hy' hy hyz hzv hadj hzh
    by_cases hroot : y = (row, col)
    · subst hroot
      obtain ⟨d, hd, rfl⟩ := direction_of_adjacent8 hadj
      exact i2 d hd hzv hzh
    · exact i1 y z hroot hy' hy hyz hzv hadj hzh

theorem reach_revealed {s s' : State}
    (hclosed : ∀ y z, s'.visible y = CellState.Revealed → s.visible y ≠ CellState.Revealed →
      s.zeroSafe y → isValid z.1 z.2 = true → Adjacent8 y z →
      s.visible z = CellState.Hidden → s'.visible z = CellState.Revealed)
    {p x : Int × Int} (h : Reach s p x) (hp' : s'.visible p = CellState.Revealed)
    (hp : s.visible p ≠ CellState.Revealed) : s'.visible x = CellState.Revealed := by
  induction h with
  | here _ => exact hp'
  | @next p q x hz hv ha hq _ ih =>
    apply ih (hclosed p q hp' hp hz hv ha hq)
    rw [hq]
    decide

theorem reach_of_path {s : State} (p : List (Int × Int)) {start x : Int × Int}
    (h : CascadePath s start x p) : Reach s start x := by
  induction p generalizing start with
  | nil =>
    have := h.1
    simp at this
  | cons a rest ih =>
    obtain ⟨h1, h2, h3, h4, h5, h6⟩ := h
    simp only [List.head?_cons, Option.some.injEq] at h1
    subst h1
    cases rest with
    | nil =>
      simp only [List.getLast?_singleton, Option.some.injEq] at h2
      subst h2
      exact Reach.here _
    | cons b rest =>
      rw [List.chain'_cons] at h4
      have hb : Reach s b x := by
        apply ih
        refine ⟨rfl, ?_, ?_, h4.2, ?_, ?_⟩
        · rw [← h2, List.getLast?_cons_cons]
        · intro q hq
          exact h3 q (List.mem_cons_of_mem _ hq)
        · intro q hq
          apply h5
          rw [List.dropLast_cons₂]
          exact List.mem_cons_of_mem _ hq
        · intro q hq
          apply h6
          rw [List.tail_cons] at hq ⊢
          exact List.mem_cons_of_mem _ hq
      refine Reach.next ?_ ?_ h4.1 ?_ hb
      · apply h5
        rw [List.dropLast_cons₂]
        exact List.mem_cons_self _ _
      · exact h3 b (List.mem_cons_of_mem _ (List.mem_cons_self _ _))
      · apply h6
        rw [List.tail_cons]
        exact List.mem_cons_self _ _

theorem path_of_reach {s : State} {start x : Int × Int} (h : Reach s start x)
    (hv : isValid start.1 start.2 = true) : ∃ p, CascadePath s start x p := by
  induction h with
  | here p =>
    refine ⟨[p], rfl, rfl, ?_, List.chain'_singleton _, ?_, ?_⟩
    · intro q hq
      rw [List.mem_singleton.1 hq]
      exact hv
    · intro q hq
      simp at hq
    · intro q hq
      simp at hq
  | @next p q x hz hqv ha hq _ ih =>
    obtain ⟨path, h1, h2, h3, h4, h5, h6⟩ := ih hqv
    cases path with
    | nil => simp at h1
    | cons b rest =>
      simp only [List.head?_cons, Option.some.injEq] at h1
      subst h1
      refine ⟨p :: b :: rest, rfl, ?_, ?_, ?_, ?_, ?_⟩
      · rw [List.getLast?_cons_cons]
        exact h2
      · intro y hy
        rcases List.mem_cons.1 hy with e | e
        · rw [e]
          exact hv
        · exact h3 y e
      · rw [List.chain'_cons]
        exact ⟨ha, h4⟩
      · intro y hy
        rw [List.dropLast_cons₂] at hy
        rcases List.mem_cons.1 hy with e | e
        · rw [e]
          exact hz
        · exact h5 y e
      · intro y hy
        rw [List.tail_cons] at hy
        rcases List.mem_cons.1 hy with e | e
        · rw [e]
          exact hq
        · apply h6
          rw [List.tail_cons]
          exact e

/-! ## revealMines and toggleFlag -/

theorem revealCells_get (real : Board) (ps : List (Int × Int)) (p0 : Board) (r c : Int) :
    (ps.foldl (fun p q =>
        if (real.get q.1 q.2).isMine = true then p.setState q.1 q.2 CellState.Revealed else p)
      p0).get r c =
      if (r, c) ∈ ps ∧ isValid r c = true ∧ (real.get r c).isMine = true then
        { p0.get r c with state := CellState.Revealed }
      else p0.get r c := by
  induction ps generalizing p0 with
  | nil => simp
  | cons q ps ih =>
    rw [List.foldl_cons, ih]
    have hq : (if (real.get q.1 q.2).isMine = true then p0.setState q.1 q.2 CellState.Revealed
        else p0).get r c =
        if ((r, c) = q ∧ isValid r c = true ∧ (real.get r c).isMine = true) then
          { p0.get r c with state := CellState.Revealed }
        else p0.get r c := by
      by_cases hm : (real.get q.1 q.2).isMine = true
      · rw [if_pos hm, Board.get_setState]
        by_cases hrc : (r, c) = q
        · subst hrc
          simp only at hm
          simp [hm]
        · have h1 : ¬ (isValid q.1 q.2 = true ∧ r = q.1 ∧ c = q.2) :=
            fun h => hrc (Prod.ext h.2.1 h.2.2)
          have h2 : ¬ ((r, c) = q ∧ isValid r c = true ∧ (real.get r c).isMine = true) :=
            fun h => hrc h.1
          rw [if_neg h1, if_neg h2]
      · rw [if_neg hm]
        have h2 : ¬ ((r, c) = q ∧ isValid r c = true ∧ (real.get r c).isMine = true) := by
          rintro ⟨rfl, _, h⟩
          exact hm h
        rw [if_neg h2]
    rw [hq]
    by_cases hv : isValid r c = true ∧ (real.get r c).isMine = true
    · by_cases h1 : (r, c) ∈ ps
      · by_cases h2 : (r, c) = q
        · simp [h1, h2, hv]
        · simp [h1, h2, hv]
      · by_cases h2 : (r, c) = q
        · subst h2
          simp [h1, hv]
        · simp [h1, h2, hv]
    · have a1 : ¬ ((r, c) ∈ ps ∧ isValid r c = true ∧ (real.get r c).isMine = true) :=
        fun h => hv h.2
      have a2 : ¬ ((r, c) = q ∧ isValid r c = true ∧ (real.get r c).isMine = true) :=
        fun h => hv h.2
      have a3 : ¬ ((r, c) ∈ q :: ps ∧ isValid r c = true ∧ (real.get r c).isMine = true) :=
        fun h => hv h.2
      rw [if_neg a1, if_neg a2, if_neg a3]

theorem revealMines_get (s : State) (r c : Int) :
    (revealMines s).playerBoard.get r c =
      if isValid r c = true ∧ (s.realBoard.get r c).isMine = true then
        { s.playerBoard.get r c with state := CellState.Revealed }
      else s.playerBoard.get r c := by
  have h0 : (revealMines s).playerBoard =
      indices.foldl (fun p r => indices.foldl (fun p c =>
        if (s.realBoard.get r c).isMine = true then p.setState r c CellState.Revealed else p) p)
        s.playerBoard := rfl
  have h1 := foldl_nested (fun p r c =>
      if (s.realBoard.get r c).isMine = true then p.setState r c CellState.Revealed else p)
      indices indices s.playerBoard
  rw [h0, h1]
  refine (revealCells_get s.realBoard cells s.playerBoard r c).trans ?_
  by_cases hv : isValid r c = true
  · have : (r, c) ∈ cells := (mem_cells (r, c)).2 hv
    simp only [this, true_and]
  · simp [hv]

theorem revealMines_visible (s : State) (p : Int × Int) :
    (revealMines s).visible p =
      if isValid p.1 p.2 = true ∧ (s.realBoard.get p.1 p.2).isMine = true then
        CellState.Revealed
      else s.visible p := by
  simp only [State.visible, revealMines_get]
  split <;> rfl

theorem safeLeft_congr (s s' : State) (hreal : s'.realBoard = s.realBoard)
    (h : ∀ p, isValid p.1 p.2 = true → (s.realBoard.get p.1 p.2).isMine = false →
      (s'.visible p = CellState.Revealed ↔ s.visible p = CellState.Revealed)) :
    safeLeft s' = safeLeft s := by
  apply countP_same
  intro p hp
  rw [mem_cells] at hp
  rw [hreal]
  cases hm : (s.realBoard.get p.1 p.2).isMine with
  | true => rfl
  | false =>
    have := h p hp hm
    simp only [Bool.not_false, Bool.true_and, decide_eq_decide]
    exact not_congr this

theorem safeLeft_revealMines (s : State) : safeLeft (revealMines s) = safeLeft s := by
  apply safeLeft_congr s (revealMines s) rfl
  intro p _ hm
  rw [revealMines_visible]
  simp [hm]

theorem toggleFlag_visible (s : State) (row col : Int) (p : Int × Int) :
    (toggleFlag s row col).1.visible p = CellState.Revealed ↔ s.visible p = CellState.Revealed := by
  unfold toggleFlag
  by_cases hr : (s.playerBoard.get row col).state = CellState.Revealed
  · rw [if_pos hr]
  · rw [if_neg hr]
    simp only [State.visible, Board.get_setState]
    by_cases hp : isValid row col = true ∧ p.1 = row ∧ p.2 = col
    · rw [if_pos hp, hp.2.1, hp.2.2]
      simp only [hr, iff_false]
      split <;> decide
    · rw [if_neg hp]

theorem toggleFlag_frame (s : State) (row col : Int) :
    (toggleFlag s row col).1.realBoard = s.realBoard ∧
    (toggleFlag s row col).1.movesLeft = s.movesLeft ∧
    (toggleFlag s row col).1.turn = s.turn ∧
    (toggleFlag s row col).1.gameOver = s.gameOver := by
  unfold toggleFlag
  split <;> exact ⟨rfl, rfl, rfl, rfl⟩

/-! ## The loop of run -/

theorem openCell_eq (s : State) (row col : Int) :
    openCell s row col = openCellFuel (99 + 1) s row col := rfl

theorem openCell_noop (s : State) (row col : Int)
    (h : isValid row col = false ∨ s.visible (row, col) = CellState.Revealed) :
    openCell s row col = some (true, s) := by
  rw [openCell_eq, openCellFuel_succ]
  by_cases hv : isValid row col = false
  · rw [if_pos hv]
  · rw [if_neg hv]
    rcases h with h | h
    · exact absurd h hv
    · rw [if_pos h]

theorem openCell_mine (s : State) (row col : Int) (hv : isValid row col = true)
    (hr : s.visible (row, col) ≠ CellState.Revealed)
    (hm : (s.realBoard.get row col).isMine = true) :
    openCell s row col = some (false, s.reveal row col) := by
  rw [openCell_eq, openCellFuel_succ]
  have hv' : ¬ (isValid row col = false) := by simp [hv]
  rw [if_neg hv', if_neg hr, if_pos hm]

theorem step_cases (s : State) (cmd : Command) :
    (isValid cmd.row cmd.col = false ∧ step s cmd = some (s, [Message.invalidCoordinates])) ∨
    (isValid cmd.row cmd.col = true ∧ cmd.action.toLower = 'f' ∧
      step s cmd = some (toggleFlag s cmd.row cmd.col)) ∨
    (isValid cmd.row cmd.col = true ∧ cmd.action.toLower ≠ 'f' ∧ cmd.action.toLower ≠ 'o' ∧
      step s cmd = some (s, [Message.unknownAction])) ∨
    (isValid cmd.row cmd.col = true ∧ cmd.action.toLower = 'o' ∧
      (relocateOnFirstMove s cmd.row cmd.col).visible (cmd.row, cmd.col) = CellState.Flagged ∧
      step s cmd = some (relocateOnFirstMove s cmd.row cmd.col, [Message.cellIsFlagged])) ∨
    (isValid cmd.row cmd.col = true ∧ cmd.action.toLower = 'o' ∧
      (relocateOnFirstMove s cmd.row cmd.col).visible (cmd.row, cmd.col) ≠ CellState.Flagged ∧
      ∃ b s2, openCell (relocateOnFirstMove s cmd.row cmd.col) cmd.row cmd.col = some (b, s2) ∧
        OpenPost (relocateOnFirstMove s cmd.row cmd.col) cmd.row cmd.col b s2 ∧
        step s cmd = some
          (if b = false then
            ({ revealMines s2 with gameOver := true, turn := s2.turn + 1 }, [Message.boom])
          else if s2.movesLeft = 0 then
            ({ revealMines s2 with gameOver := true, turn := s2.turn + 1 },
              [Message.congratulations])
          else ({ s2 with turn := s2.turn + 1 }, []))) := by
  by_cases hv : isValid cmd.row cmd.col = true
  · by_cases hf : cmd.action.toLower = 'f'
    · right; left
      refine ⟨hv, hf, ?_⟩
      simp only [step, hv, hf, Bool.not_true, Bool.false_eq_true, if_false, if_true]
    · by_cases ho : cmd.action.toLower = 'o'
      · have hof : ¬ ('o' = 'f') := by decide
        by_cases hfl : (relocateOnFirstMove s cmd.row cmd.col).visible (cmd.row, cmd.col)
            = CellState.Flagged
        · right; right; right; left
          refine ⟨hv, ho, hfl, ?_⟩
          have hfl' : ((relocateOnFirstMove s cmd.row cmd.col).playerBoard.get cmd.row
            cmd.col).state = CellState.Flagged := hfl
          simp only [step, hv, hof, ho, hfl', Bool.not_true, Bool.false_eq_true, if_false,
            if_true, ne_eq, not_true_eq_false]
        · right; right; right; right
          refine ⟨hv, ho, hfl, ?_⟩
          obtain ⟨b, s2, hopen, hpost⟩ :=
            openCell_post (relocateOnFirstMove s cmd.row cmd.col) cmd.row cmd.col
          refine ⟨b, s2, hopen, hpost, ?_⟩
          have hfl' : ¬ ((relocateOnFirstMove s cmd.row cmd.col).playerBoard.get cmd.row
            cmd.col).state = CellState.Flagged := hfl
          simp only [step, hv, hof, ho, hfl', hopen, Bool.not_true, Bool.false_eq_true, if_false,
            ne_eq, not_true_eq_false]
          cases b with
          | false => simp
          | true =>
            by_cases hz : s2.movesLeft = 0
            · simp [hz]
            · simp [hz]
      · right; right; left
        refine ⟨hv, hf, ho, ?_⟩
        simp only [step, hv, hf, ho, Bool.not_true, Bool.false_eq_true, if_false, ne_eq,
          not_false_eq_true, if_true]
  · left
    have hv' : isValid cmd.row cmd.col = false := by simpa using hv
    refine ⟨hv', ?_⟩
    simp only [step, hv', Bool.not_false, if_true]

theorem countP_add_countP_not {α : Type} (l : List α) (p : α → Bool) :
    l.countP p + l.countP (fun a => !p a) = l.length := by
  induction l with
  | nil => rfl
  | cons a l ih =>
    rw [List.countP_cons, List.countP_cons, List.length_cons]
    cases p a <;> simp <;> omega

theorem safeLeft_add_mineCount (s : State)
    (h : ∀ p, isValid p.1 p.2 = true → s.visible p ≠ CellState.Revealed) :
    safeLeft s + mineCount s.realBoard = 100 := by
  have h1 : safeLeft s = cells.countP (fun p => !(s.realBoard.get p.1 p.2).isMine) := by
    apply countP_same
    intro p hp
    have := h p ((mem_cells p).1 hp)
    simp [this]
  have h2 := countP_add_countP_not cells (fun p => (s.realBoard.get p.1 p.2).isMine)
  rw [cells_length] at h2
  rw [h1, mineCount]
  omega

theorem relocateOnFirstMove_frame (s : State) (row col : Int) :
    (relocateOnFirstMove s row col).playerBoard = s.playerBoard ∧
    (relocateOnFirstMove s row col).movesLeft = s.movesLeft ∧
    (relocateOnFirstMove s row col).turn = s.turn ∧
    (relocateOnFirstMove s row col).gameOver = s.gameOver := by
  unfold relocateOnFirstMove
  split <;> exact ⟨rfl, rfl, rfl, rfl⟩

theorem mineCount_relocateOnFirstMove (s : State) (row col : Int) (hv : isValid row col = true) :
    mineCount (relocateOnFirstMove s row col).realBoard = mineCount s.realBoard := by
  by_cases h : s.turn = 0 ∧ (s.realBoard.get row col).isMine = true
  · rw [relocateOnFirstMove, if_pos h]
    dsimp only
    rw [mineCount_calculateAdjacents, mineCount_relocateMine _ _ _ hv h.2]
  · rw [relocateOnFirstMove, if_neg h]

theorem relocateTarget_isSome (b : Board) (ar ac : Int)
    (hm : (b.get ar ac).isMine = true) (hcount : mineCount b < 100) :
    ∃ p, relocateTarget b ar ac = some p := by
  cases h : relocateTarget b ar ac with
  | some p => exact ⟨p, rfl⟩
  | none =>
    exfalso
    unfold relocateTarget at h
    rw [List.find?_eq_none] at h
    have hall : ∀ p ∈ cells, (b.get p.1 p.2).isMine = true := by
      intro p hp
      have := h p hp
      simp only [Bool.and_eq_true, Bool.not_eq_true', not_and, Bool.not_eq_false,
        Bool.and_eq_false_iff, beq_eq_false_iff_ne, ne_eq] at this
      by_cases e : p.1 = ar ∧ p.2 = ac
      · rw [e.1, e.2]
        exact hm
      · apply this
        by_cases e1 : p.1 = ar
        · right
          exact fun e2 => e ⟨e1, e2⟩
        · left
          exact e1
    have : mineCount b = cells.length := List.countP_eq_length.2 hall
    rw [cells_length] at this
    omega

theorem relocateOnFirstMove_safe (s : State) (row col : Int) (hv : isValid row col = true)
    (ht : s.turn = 0) (hcount : mineCount s.realBoard < 100) :
    ((relocateOnFirstMove s row col).realBoard.get row col).isMine = false := by
  unfold relocateOnFirstMove
  by_cases hm : (s.realBoard.get row col).isMine = true
  · rw [if_pos ⟨ht, hm⟩]
    dsimp only
    obtain ⟨p, hp⟩ := relocateTarget_isSome s.realBoard row col hm hcount
    rw [calculateAdjacents_isMine, relocateMine_get_isMine _ _ _ p hp hv]
    simp
  · have : ¬ (s.turn = 0 ∧ (s.realBoard.get row col).isMine = true) := fun h => hm h.2
    rw [if_neg this]
    simpa using hm

theorem loopInvariant_relocate (s : State) (row col : Int) (hv : isValid row col = true)
    (h : LoopInvariant s) : LoopInvariant (relocateOnFirstMove s row col) := by
  obtain ⟨h1, h2, h3, h4⟩ := h
  obtain ⟨f1, f2, f3, f4⟩ := relocateOnFirstMove_frame s row col
  have hvis : ∀ p, (relocateOnFirstMove s row col).visible p = s.visible p := by
    intro p
    simp only [State.visible, f1]
  have hsafe : safeLeft (relocateOnFirstMove s row col) = safeLeft s := by
    by_cases hc : s.turn = 0 ∧ (s.realBoard.get row col).isMine = true
    · have a1 := safeLeft_add_mineCount s (h3 hc.1)
      have a2 := safeLeft_add_mineCount (relocateOnFirstMove s row col) (by
        intro p hp
        rw [hvis]
        exact h3 hc.1 p hp)
      rw [mineCount_relocateOnFirstMove s row col hv] at a2
      omega
    · unfold relocateOnFirstMove
      rw [if_neg hc]
  refine ⟨by rw [f2, hsafe]; exact h1, by rw [f3]; exact h2, ?_, by rw [f4, f2]; exact h4⟩
  intro ht p hp
  rw [hvis]
  rw [f3] at ht
  exact h3 ht p hp

theorem safeLeft_toggleFlag (s : State) (row col : Int) :
    safeLeft (toggleFlag s row col).1 = safeLeft s :=
  safeLeft_congr s _ (toggleFlag_frame s row col).1 (fun p _ _ => toggleFlag_visible s row col p)

theorem loopInvariant_toggleFlag (s : State) (row col : Int) (h : LoopInvariant s) :
    LoopInvariant (toggleFlag s row col).1 := by
  obtain ⟨h1, h2, h3, h4⟩ := h
  obtain ⟨-, f2, f3, f4⟩ := toggleFlag_frame s row col
  refine ⟨by rw [f2, safeLeft_toggleFlag]; exact h1, by rw [f3]; exact h2, ?_,
    by rw [f4, f2]; exact h4⟩
  intro ht p hp hr
  rw [f3] at ht
  exact h3 ht p hp ((toggleFlag_visible s row col p).1 hr)

theorem safeLeft_finish (s2 : State) (g : Bool) (t : Int) :
    safeLeft { revealMines s2 with gameOver := g, turn := t } = safeLeft s2 :=
  (safeLeft_congr (revealMines s2) _ rfl (fun _ _ _ => Iff.rfl)).trans (safeLeft_revealMines s2)

theorem safeLeft_nextTurn (s2 : State) (t : Int) :
    safeLeft { s2 with turn := t } = safeLeft s2 :=
  safeLeft_congr s2 _ rfl (fun _ _ _ => Iff.rfl)

theorem safeLeft_eq_zero_iff (s : State) :
    safeLeft s = 0 ↔ ∀ r c, isValid r c = true → (s.realBoard.get r c).isMine = false →
      (s.playerBoard.get r c).state = CellState.Revealed := by
  unfold safeLeft
  rw [List.countP_eq_zero]
  constructor
  · intro h r c hv hm
    have := h (r, c) ((mem_cells _).2 hv)
    simpa [State.visible, hm] using this
  · intro h p hp
    have := h p.1 p.2 ((mem_cells _).1 hp)
    cases hm : (s.realBoard.get p.1 p.2).isMine with
    | true => simp
    | false => simp [State.visible, this hm]

/-- One iteration of the loop of `run` from a state that satisfies the invariant,
while the game is on: it returns, the invariant holds afterwards, and it ends the game
as a win exactly when no non-mine cell is left to reveal. -/
theorem step_outcome (s : State) (cmd : Command) (hinv : LoopInvariant s)
    (hover : s.gameOver = false) :
    ∃ res, step s cmd = some res ∧ LoopInvariant res.1 ∧ (endsInWin res ↔ safeLeft res.1 = 0) := by
  have hpos : ∀ t : State, LoopInvariant t → t.gameOver = false →
      ¬ (t.gameOver = true) ∧ safeLeft t ≠ 0 := by
    intro t ht hg
    have h1 := ht.1
    have h4 := ht.2.2.2 hg
    refine ⟨by simp [hg], ?_⟩
    intro h0
    rw [h0] at h1
    simp only [Nat.cast_zero] at h1
    omega
  rcases step_cases s cmd with ⟨_, hs⟩ | ⟨_, _, hs⟩ | ⟨_, _, _, hs⟩ | ⟨hv, _, _, hs⟩ |
    ⟨hv, _, _, b, s2, hopen, hpost, hs⟩
  · obtain ⟨n1, n2⟩ := hpos s hinv hover
    exact ⟨_, hs, hinv, ⟨fun h => absurd h.1 n1, fun h => absurd h n2⟩⟩
  · have hinv' := loopInvariant_toggleFlag s cmd.row cmd.col hinv
    have hg : (toggleFlag s cmd.row cmd.col).1.gameOver = false := by
      rw [(toggleFlag_frame s cmd.row cmd.col).2.2.2]
      exact hover
    obtain ⟨n1, n2⟩ := hpos _ hinv' hg
    exact ⟨_, hs, hinv', ⟨fun h => absurd h.1 n1, fun h => absurd h n2⟩⟩
  · obtain ⟨n1, n2⟩ := hpos s hinv hover
    exact ⟨_, hs, hinv, ⟨fun h => absurd h.1 n1, fun h => absurd h n2⟩⟩
  · have hinv' := loopInvariant_relocate s cmd.row cmd.col hv hinv
    have hg : (relocateOnFirstMove s cmd.row cmd.col).gameOver = false := by
      rw [(relocateOnFirstMove_frame s cmd.row cmd.col).2.2.2]
      exact hover
    obtain ⟨n1, n2⟩ := hpos _ hinv' hg
    exact ⟨_, hs, hinv', ⟨fun h => absurd h.1 n1, fun h => absurd h n2⟩⟩
  · have hinv' := loopInvariant_relocate s cmd.row cmd.col hv hinv
    have hg : (relocateOnFirstMove s cmd.row cmd.col).gameOver = false := by
      rw [(relocateOnFirstMove_frame s cmd.row cmd.col).2.2.2]
      exact hover
    generalize relocateOnFirstMove s cmd.row cmd.col = s1 at hinv' hg hopen hpost hs
    obtain ⟨i1, i2, -, i4⟩ := hinv'
    obtain ⟨⟨-, c2, c3, -, c5⟩, -, hflag⟩ := hpost
    have hm2 : s2.movesLeft = (safeLeft s2 : Int) := by omega
    have ht2 : 0 ≤ s2.turn := by rw [c2]; exact i2
    have hend : ∀ g : Bool, g = true →
        LoopInvariant { revealMines s2 with gameOver := g, turn := s2.turn + 1 } := by
      intro g hg'
      refine ⟨?_, ?_, ?_, ?_⟩
      · rw [safeLeft_finish]
        exact hm2
      · show 0 ≤ s2.turn + 1
        omega
      · intro h0
        have h0' : s2.turn + 1 = 0 := h0
        omega
      · intro hfalse
        have hfalse' : g = false := hfalse
        rw [hg'] at hfalse'
        cases hfalse'
    refine ⟨_, hs, ?_⟩
    cases b with
    | false =>
      rw [if_pos rfl]
      refine ⟨hend true rfl, ?_⟩
      have hmine := hflag.1 rfl
      have hopen' := openCell_mine s1 cmd.row cmd.col hmine.1 hmine.2.1 hmine.2.2
      rw [hopen] at hopen'
      have hs2 : s2 = s1.reveal cmd.row cmd.col := (Prod.mk.inj (Option.some.inj hopen')).2
      have hmv : s2.movesLeft = s1.movesLeft := by rw [hs2]; rfl
      have hp1 := i4 hg
      constructor
      · intro h
        have := h.2
        simp at this
      · intro h
        rw [safeLeft_finish] at h
        rw [h] at hm2
        simp only [Nat.cast_zero] at hm2
        omega
    | true =>
      have hne : ¬ (true = false) := by decide
      rw [if_neg hne]
      by_cases hz : s2.movesLeft = 0
      · rw [if_pos hz]
        refine ⟨hend true rfl, ?_⟩
        constructor
        · intro _
          rw [safeLeft_finish]
          rw [hz] at hm2
          exact_mod_cast hm2.symm
        · intro _
          exact ⟨rfl, List.mem_singleton.2 rfl⟩
      · rw [if_neg hz]
        refine ⟨⟨?_, ?_, ?_, ?_⟩, ?_⟩
        · rw [safeLeft_nextTurn]
          exact hm2
        · show 0 ≤ s2.turn + 1
          omega
        · intro h0
          have h0' : s2.turn + 1 = 0 := h0
          omega
        · intro _
          show 0 < s2.movesLeft
          omega
        · constructor
          · intro h
            have := h.2
            simp at this
          · intro h
            rw [safeLeft_nextTurn] at h
            rw [h] at hm2
            exact absurd hm2 hz

theorem loopInvariant_initial (s : State) (h : InitialState s) : LoopInvariant s := by
  obtain ⟨h1, h2, h3, h4, h5⟩ := h
  have hnone : ∀ p, isValid p.1 p.2 = true → s.visible p ≠ CellState.Revealed := by
    intro p hp
    have := h2 p.1 p.2 hp
    simp only [State.visible, this]
    decide
  have hsum := safeLeft_add_mineCount s hnone
  simp only [MINES, SIDE] at h1 h3
  refine ⟨by omega, by omega, fun _ => hnone, fun _ => by omega⟩

theorem loopInvariant_reachable {s0 s : State} (h0 : InitialState s0) (h : Reachable s0 s) :
    LoopInvariant s := by
  induction h with
  | start => exact loopInvariant_initial s0 h0
  | @next s s' msgs cmd _ hover hstep ih =>
    obtain ⟨res, hres, hinv, -⟩ := step_outcome s cmd ih hover
    rw [hstep] at hres
    rw [← Option.some.inj hres] at hinv
    exact hinv

theorem no_mine_around_zero {b : Board} (hexact : ExactAdjacency b) {p q : Int × Int}
    (hp : isValid p.1 p.2 = true) (hm : (b.get p.1 p.2).isMine = false)
    (hz : (b.get p.1 p.2).adjacentMines = 0) (hq : isValid q.1 q.2 = true)
    (ha : Adjacent8 p q) : (b.get q.1 q.2).isMine = false := by
  have h := hexact p.1 p.2 hp hm
  rw [hz] at h
  have h0 : mineNeighbours b p.1 p.2 = 0 := by exact_mod_cast h.symm
  unfold mineNeighbours at h0
  rw [List.countP_eq_zero, offsets_eq] at h0
  obtain ⟨d, hd, rfl⟩ := direction_of_adjacent8 ha
  have := h0 d hd
  simp only [Bool.and_eq_true, not_and, Bool.not_eq_true] at this
  exact this hq

theorem reach_safe {s : State} (hexact : ExactAdjacency s.realBoard) {p x : Int × Int}
    (h : Reach s p x) (hp : isValid p.1 p.2 = true)
    (hm : (s.realBoard.get p.1 p.2).isMine = false) :
    (s.realBoard.get x.1 x.2).isMine = false := by
  induction h with
  | here _ => exact hm
  | @next p q x hz hqv ha _ _ ih =>
    exact ih hqv (no_mine_around_zero hexact hp hz.1 hz.2 hqv ha)

set_option maxRecDepth 1000000 in
theorem initialState_sampleGame : InitialState sampleGame := by
  refine ⟨by decide, ?_, rfl, rfl, rfl⟩
  intro r c hv
  have h : ∀ p ∈ cells, (sampleGame.playerBoard.get p.1 p.2).state = CellState.Hidden := by
    decide
  exact h (r, c) ((mem_cells _).2 hv)

set_option maxRecDepth 1000000 in
theorem step_sampleGame_flag :
    step sampleGame ⟨0, 1, 'f'⟩ = some (flaggedGame, []) := by
  rfl

/-! ## First-move safety and the board generator -/

/-- C1. First-move safety: in a state with turn counter 0 whose truth grid holds fewer
than `SIDE * SIDE` mines, the iteration of `run` for the command `open (row, col)` on a
cell of the grid returns and does not end the game in a loss (the loss message is not
printed), whether or not the target was a mine before the iteration. -/
theorem first_open_never_loses (s : State) (cmd : Command) (hturn : s.turn = 0)
    (hmines : (mineCount s.realBoard : Int) < SIDE * SIDE)
    (hv : isValid cmd.row cmd.col = true) (hopen : cmd.action.toLower = 'o') :
    ∃ res, step s cmd = some res ∧ ¬ endsInLoss res ∧ Message.boom ∉ res.2 := by
  have hcount : mineCount s.realBoard < 100 := by
    simp only [SIDE] at hmines
    omega
  have hsafe := relocateOnFirstMove_safe s cmd.row cmd.col hv hturn hcount
  have hof : ¬ ('o' = 'f') := by decide
  rcases step_cases s cmd with ⟨h, _⟩ | ⟨_, h, _⟩ | ⟨_, _, h, _⟩ | ⟨_, _, _, hs⟩ |
    ⟨_, _, _, b, s2, _, hpost, hs⟩
  · rw [hv] at h
    cases h
  · rw [hopen] at h
    exact absurd h hof
  · exact absurd hopen h
  · refine ⟨_, hs, fun h => ?_, ?_⟩
    · have := h.2
      simp at this
    · simp
  · have hb : b = true := by
      cases b with
      | true => rfl
      | false =>
        have := (hpost.2.2.1 rfl).2.2
        rw [hsafe] at this
        cases this
    subst hb
    refine ⟨_, hs, ?_⟩
    have hne : ¬ (true = false) := by decide
    rw [if_neg hne]
    by_cases hz : s2.movesLeft = 0
    · rw [if_pos hz]
      refine ⟨fun h => ?_, ?_⟩
      · have := h.2
        simp at this
      · simp
    · rw [if_neg hz]
      refine ⟨fun h => ?_, ?_⟩
      · have := h.2
        simp at this
      · simp

set_option maxRecDepth 1000000 in
theorem first_open_never_loses_witness :
    (sampleGame.realBoard.get 0 0).isMine = true ∧
    ∃ res, step sampleGame ⟨0, 0, 'o'⟩ = some res ∧ ¬ endsInLoss res ∧ Message.boom ∉ res.2 :=
  ⟨by decide,
    first_open_never_loses sampleGame ⟨0, 0, 'o'⟩ rfl (by decide) (by decide) (by decide)⟩

/-- C2. Mine count is conserved across relocation: when the avoided cell is a cell of
the grid and a mine, `relocateMine` leaves the number of mines unchanged, so a grid
with exactly `MINES` mines still has exactly `MINES` mines. -/
theorem relocateMine_conserves_mines (b : Board) (avoidRow avoidCol : Int)
    (hv : isValid avoidRow avoidCol = true) (hm : (b.get avoidRow avoidCol).isMine = true) :
    mineCount (relocateMine b avoidRow avoidCol) = mineCount b ∧
    ((mineCount b : Int) = MINES → (mineCount (relocateMine b avoidRow avoidCol) : Int) = MINES) := by
  have h := mineCount_relocateMine b avoidRow avoidCol hv hm
  exact ⟨h, fun hb => by rw [h]; exact hb⟩

set_option maxRecDepth 1000000 in
theorem relocateMine_conserves_mines_witness :
    mineCount (relocateMine sampleLayout 3 3) = mineCount sampleLayout ∧
    ((mineCount sampleLayout : Int) = MINES →
      (mineCount (relocateMine sampleLayout 3 3) : Int) = MINES) :=
  relocateMine_conserves_mines sampleLayout 3 3 (by decide) (by decide)

/-- C3. After `calculateAdjacents` every non-mine cell (r, c) of the grid stores the
number of cells (r + dr, c + dc), over the eight non-zero offsets, that lie inside the
grid and are mines; the corner (0, 0) counts only (0, 1), (1, 0) and (1, 1), so its
value is at most 3; `isMine` of every cell and `adjacentMines` of every mine cell are
unchanged. -/
theorem calculateAdjacents_counts (b : Board) :
    (∀ r c, isValid r c = true → ((calculateAdjacents b).get r c).isMine = false →
      ((calculateAdjacents b).get r c).adjacentMines = (mineNeighbours b r c : Int)) ∧
    (((calculateAdjacents b).get 0 0).isMine = false →
      ((calculateAdjacents b).get 0 0).adjacentMines =
        (((if (b.get 0 1).isMine = true then 1 else 0) +
          (if (b.get 1 0).isMine = true then 1 else 0) +
          (if (b.get 1 1).isMine = true then 1 else 0) : Nat) : Int) ∧
      ((calculateAdjacents b).get 0 0).adjacentMines ≤ 3) ∧
    (∀ r c, ((calculateAdjacents b).get r c).isMine = (b.get r c).isMine) ∧
    (∀ r c, (b.get r c).isMine = true →
      ((calculateAdjacents b).get r c).adjacentMines = (b.get r c).adjacentMines) := by
  have hadj : ∀ r c, isValid r c = true → ((calculateAdjacents b).get r c).isMine = false →
      ((calculateAdjacents b).get r c).adjacentMines = (mineNeighbours b r c : Int) := by
    intro r c hv hm
    rw [calculateAdjacents_isMine] at hm
    rw [calculateAdjacents_adjacent, if_pos ⟨hv, hm⟩]
  refine ⟨hadj, ?_, calculateAdjacents_isMine b, ?_⟩
  · intro hm
    have h := hadj 0 0 (by decide) hm
    rw [mineNeighbours_corner] at h
    refine ⟨h, ?_⟩
    rw [h]
    have h1 : (if (b.get 0 1).isMine = true then 1 else 0) ≤ 1 := by split <;> omega
    have h2 : (if (b.get 1 0).isMine = true then 1 else 0) ≤ 1 := by split <;> omega
    have h3 : (if (b.get 1 1).isMine = true then 1 else 0) ≤ 1 := by split <;> omega
    omega
  · intro r c hm
    rw [calculateAdjacents_adjacent]
    have : ¬ (isValid r c = true ∧ (b.get r c).isMine = false) := by
      rintro ⟨_, h⟩
      rw [hm] at h
      cases h
    rw [if_neg this]

set_option maxRecDepth 1000000 in
theorem calculateAdjacents_counts_witness :
    isValid 4 2 = true ∧ mineNeighbours sampleLayout 4 2 = 2 ∧
    ((calculateAdjacents sampleLayout).get 4 2).adjacentMines =
      (mineNeighbours sampleLayout 4 2 : Int) :=
  ⟨by decide, by decide,
    (calculateAdjacents_counts sampleLayout).1 4 2 (by decide) (by decide)⟩

/-! ## The flood-fill -/

/-- C4. Flood-fill reveals exactly the reachable region: after `openCell(row, col)` on
a cell of the grid that is neither `Revealed` nor a mine, the call returns true and a
cell x is `Revealed` if and only if it was `Revealed` before or there is a path
p0 = (row, col), ..., pk = x of cells of the grid, consecutive ones 8-adjacent, every
cell before the last a non-mine cell with `adjacentMines = 0`, every cell after the
first `Hidden` before the call. In particular, when all cells are `Hidden`, the cells
revealed are those joined to (row, col) by a path through zero-count non-mine cells. -/
theorem openCell_reveals_reachable (s : State) (row col : Int)
    (hv : isValid row col = true)
    (hr : (s.playerBoard.get row col).state ≠ CellState.Revealed)
    (hm : (s.realBoard.get row col).isMine = false) :
    ∃ s', openCell s row col = some (true, s') ∧
      (∀ x : Int × Int, (s'.playerBoard.get x.1 x.2).state = CellState.Revealed ↔
        ((s.playerBoard.get x.1 x.2).state = CellState.Revealed ∨
          ∃ p, CascadePath s (row, col) x p)) ∧
      ((∀ r c, isValid r c = true → (s.playerBoard.get r c).state = CellState.Hidden) →
        ∀ x : Int × Int, (s'.playerBoard.get x.1 x.2).state = CellState.Revealed ↔
          ∃ p : List (Int × Int), p.head? = some (row, col) ∧ p.getLast? = some x ∧
            (∀ q ∈ p, isValid q.1 q.2 = true) ∧ p.Chain' Adjacent8 ∧
            (∀ q ∈ p.dropLast, (s.realBoard.get q.1 q.2).isMine = false ∧
              (s.realBoard.get q.1 q.2).adjacentMines = 0)) := by
  obtain ⟨b, s', hopen, hpost⟩ := openCell_post s row col
  have hb : b = true := by
    cases b with
    | true => rfl
    | false =>
      have := (hpost.2.2.1 rfl).2.2
      rw [hm] at this
      cases this
  subst hb
  have hroot : s'.visible (row, col) = CellState.Revealed := hpost.2.1 hv
  have hmain : ∀ x : Int × Int, (s'.playerBoard.get x.1 x.2).state = CellState.Revealed ↔
      ((s.playerBoard.get x.1 x.2).state = CellState.Revealed ∨
        ∃ p, CascadePath s (row, col) x p) := by
    intro x
    constructor
    · intro hx'
      by_cases hx : s.visible x = CellState.Revealed
      · exact Or.inl hx
      · right
        exact path_of_reach (openCellFuel_sound _ _ _ _ _ _ hopen x hx' hx) hv
    · rintro (hx | ⟨p, hp⟩)
      · exact hpost.1.revealed_mono hx
      · exact reach_revealed (fun y z => openCellFuel_closed _ _ _ _ _ _ hopen y z)
          (reach_of_path p hp) hroot hr
  refine ⟨s', hopen, hmain, ?_⟩
  intro hall x
  rw [hmain x]
  constructor
  · rintro (hx | ⟨p, h1, h2, h3, h4, h5, -⟩)
    · by_cases hxv : isValid x.1 x.2 = true
      · rw [hall x.1 x.2 hxv] at hx
        cases hx
      · have hxv' : isValid x.1 x.2 = false := by simpa using hxv
        rw [Board.get_invalid _ _ _ hxv'] at hx
        cases hx
    · exact ⟨p, h1, h2, h3, h4, h5⟩
  · rintro ⟨p, h1, h2, h3, h4, h5⟩
    right
    refine ⟨p, h1, h2, h3, h4, h5, ?_⟩
    intro q hq
    exact hall q.1 q.2 (h3 q (List.mem_of_mem_tail hq))

set_option maxRecDepth 1000000 in
theorem openCell_reveals_reachable_witness :
    ∃ s', openCell sampleGame 9 0 = some (true, s') ∧
      (∀ x : Int × Int, (s'.playerBoard.get x.1 x.2).state = CellState.Revealed ↔
        ((sampleGame.playerBoard.get x.1 x.2).state = CellState.Revealed ∨
          ∃ p, CascadePath sampleGame (9, 0) x p)) ∧
      ((∀ r c, isValid r c = true →
          (sampleGame.playerBoard.get r c).state = CellState.Hidden) →
        ∀ x : Int × Int, (s'.playerBoard.get x.1 x.2).state = CellState.Revealed ↔
          ∃ p : List (Int × Int), p.head? = some (9, 0) ∧ p.getLast? = some x ∧
            (∀ q ∈ p, isValid q.1 q.2 = true) ∧ p.Chain' Adjacent8 ∧
            (∀ q ∈ p.dropLast, (sampleGame.realBoard.get q.1 q.2).isMine = false ∧
              (sampleGame.realBoard.get q.1 q.2).adjacentMines = 0)) :=
  openCell_reveals_reachable sampleGame 9 0 (by decide) (by decide) (by decide)

/-- C5. The cascade never reveals a mine: when every non-mine cell of the truth grid
stores the exact number of its mine neighbours, `openCell(row, col)` on a non-mine
cell of the grid returns true and leaves the visible cell of every mine as it was (a
mine that was `Hidden` stays `Hidden`). -/
theorem cascade_never_reveals_mine (s : State) (row col : Int)
    (hexact : ExactAdjacency s.realBoard) (hv : isValid row col = true)
    (hm : (s.realBoard.get row col).isMine = false) :
    ∃ s', openCell s row col = some (true, s') ∧
      ∀ r c, isValid r c = true → (s.realBoard.get r c).isMine = true →
        s'.playerBoard.get r c = s.playerBoard.get r c ∧
        ((s.playerBoard.get r c).state = CellState.Hidden →
          (s'.playerBoard.get r c).state = CellState.Hidden) := by
  obtain ⟨b, s', hopen, hpost⟩ := openCell_post s row col
  have hb : b = true := by
    cases b with
    | true => rfl
    | false =>
      have := (hpost.2.2.1 rfl).2.2
      rw [hm] at this
      cases this
  subst hb
  refine ⟨s', hopen, ?_⟩
  intro r c _ hmine
  have hsame : s'.playerBoard.get r c = s.playerBoard.get r c := by
    rcases hpost.1.2.2.2.1 r c with e | ⟨_, hne, _, e⟩
    · exact e
    · exfalso
      have hx' : s'.visible (r, c) = CellState.Revealed := by
        simp only [State.visible, e]
      have hreach := openCellFuel_sound _ _ _ _ _ _ hopen (r, c) hx' hne
      have := reach_safe hexact hreach hv hm
      rw [hmine] at this
      cases this
  exact ⟨hsame, fun h => by rw [hsame]; exact h⟩

set_option maxRecDepth 1000000 in
theorem cascade_never_reveals_mine_witness :
    ∃ s', openCell sampleGame 9 0 = some (true, s') ∧
      ∀ r c, isValid r c = true → (sampleGame.realBoard.get r c).isMine = true →
        s'.playerBoard.get r c = sampleGame.playerBoard.get r c ∧
        ((sampleGame.playerBoard.get r c).state = CellState.Hidden →
          (s'.playerBoard.get r c).state = CellState.Hidden) :=
  cascade_never_reveals_mine sampleGame 9 0 (exactAdjacency_calculateAdjacents sampleLayout)
    (by decide) (by decide)

/-! ## Win detection and the counter movesLeft -/

/-- C6. Win detection is exact: from an initial state (truth grid with exactly `MINES`
mines and exact adjacency counts, all visible cells `Hidden`,
`movesLeft = SIDE * SIDE - MINES`, `turn = 0`, game not over), in every state that the
loop of `run` reaches and in which it makes a further iteration, the iteration returns
and ends the game as a win if and only if afterwards every non-mine cell is
`Revealed`. -/
theorem win_detection_exact (s0 s : State) (cmd : Command) (h0 : InitialState s0)
    (_hexact : ExactAdjacency s0.realBoard) (hreach : Reachable s0 s)
    (hover : s.gameOver = false) :
    ∃ res, step s cmd = some res ∧
      (endsInWin res ↔
        ∀ r c, isValid r c = true → (res.1.realBoard.get r c).isMine = false →
          (res.1.playerBoard.get r c).state = CellState.Revealed) := by
  obtain ⟨res, hres, -, hwin⟩ := step_outcome s cmd (loopInvariant_reachable h0 hreach) hover
  exact ⟨res, hres, hwin.trans (safeLeft_eq_zero_iff res.1)⟩

set_option maxRecDepth 1000000 in
theorem win_detection_exact_witness :
    ∃ res, step flaggedGame ⟨9, 0, 'o'⟩ = some res ∧
      (endsInWin res ↔
        ∀ r c, isValid r c = true → (res.1.realBoard.get r c).isMine = false →
          (res.1.playerBoard.get r c).state = CellState.Revealed) :=
  win_detection_exact sampleGame flaggedGame ⟨9, 0, 'o'⟩ initialState_sampleGame
    (exactAdjacency_calculateAdjacents sampleLayout)
    (Reachable.next ⟨0, 1, 'f'⟩ Reachable.start rfl step_sampleGame_flag) rfl

set_option maxRecDepth 1000000 in
/-- C7, as stated, fails: after the command `0 1 f` on the sample game, a state that the
loop reaches from an initial state, `movesLeft` is 90 while only 89 non-mine cells are
`Hidden` (the flagged cell is a non-mine cell that is not `Hidden`). -/
theorem movesLeft_ne_hidden_count :
    InitialState sampleGame ∧ Reachable sampleGame flaggedGame ∧
    flaggedGame.movesLeft = 90 ∧ hiddenSafe flaggedGame = 89 ∧
    flaggedGame.movesLeft ≠ (hiddenSafe flaggedGame : Int) :=
  ⟨initialState_sampleGame,
    Reachable.next ⟨0, 1, 'f'⟩ Reachable.start rfl step_sampleGame_flag,
    by decide, by decide, by decide⟩

/-- C7, amended. In every state that the loop of `run` reaches from an initial state
(all visible cells `Hidden`, `movesLeft = SIDE * SIDE - MINES`, exactly `MINES` mines),
`movesLeft` equals the number of non-mine cells whose visible state is not `Revealed`,
that is `Hidden` or `Flagged`. -/
theorem movesLeft_counts_unrevealed (s0 s : State) (h0 : InitialState s0)
    (hreach : Reachable s0 s) : s.movesLeft = (safeLeft s : Int) :=
  (loopInvariant_reachable h0 hreach).1

set_option maxRecDepth 1000000 in
theorem movesLeft_counts_unrevealed_witness :
    flaggedGame.movesLeft = (safeLeft flaggedGame : Int) :=
  movesLeft_counts_unrevealed sampleGame flaggedGame initialState_sampleGame
    (Reachable.next ⟨0, 1, 'f'⟩ Reachable.start rfl step_sampleGame_flag)

/-! ## Rejected and repeated opens -/

theorem step_open_flagged (s : State) (cmd : Command) (hv : isValid cmd.row cmd.col = true)
    (hopen : cmd.action.toLower = 'o')
    (hfl : (s.playerBoard.get cmd.row cmd.col).state = CellState.Flagged)
    (hno : ¬ (s.turn = 0 ∧ (s.realBoard.get cmd.row cmd.col).isMine = true)) :
    step s cmd = some (s, [Message.cellIsFlagged]) := by
  have hrel : relocateOnFirstMove s cmd.row cmd.col = s := by
    rw [relocateOnFirstMove, if_neg hno]
  have hof : ¬ ('o' = 'f') := by decide
  rcases step_cases s cmd with ⟨h, _⟩ | ⟨_, h, _⟩ | ⟨_, _, h, _⟩ | ⟨_, _, _, hs⟩ |
    ⟨_, _, h, _⟩
  · rw [hv] at h
    cases h
  · rw [hopen] at h
    exact absurd h hof
  · exact absurd hopen h
  · rw [hrel] at hs
    exact hs
  · rw [hrel] at h
    exact absurd hfl h

set_option maxRecDepth 1000000 in
/-- C8 on the failing input: on turn 0, with the mine at (3, 3) flagged, the command
`3 3 o` is rejected with the message for a flagged cell and the cell stays `Flagged`,
but the truth grid has changed: the mine has moved from (3, 3) to (0, 1) and the
adjacency count of (1, 1) has gone from 1 to 2. -/
theorem open_flagged_mine_on_turn_zero :
    flaggedMineGame.turn = 0 ∧
    (flaggedMineGame.playerBoard.get 3 3).state = CellState.Flagged ∧
    (flaggedMineGame.realBoard.get 3 3).isMine = true ∧
    (flaggedMineGame.realBoard.get 0 1).isMine = false ∧
    (flaggedMineGame.realBoard.get 1 1).adjacentMines = 1 ∧
    (step flaggedMineGame ⟨3, 3, 'o'⟩).map (fun res =>
      (res.2, (res.1.playerBoard.get 3 3).state, (res.1.realBoard.get 3 3).isMine,
        (res.1.realBoard.get 0 1).isMine, (res.1.realBoard.get 1 1).adjacentMines,
        res.1.movesLeft, res.1.turn, res.1.gameOver)) =
      some ([Message.cellIsFlagged], CellState.Flagged, false, true, 2, 90, 0, false) := by
  refine ⟨by decide, by decide, by decide, by decide, by decide, ?_⟩
  rfl

/-- C9. Re-opening is a no-op: the call `openCell(row, col)` returns, and a second call
made on the state it leaves returns true and leaves the whole state as it is; a call
on a coordinate outside the grid or on a `Revealed` cell returns true with no change
of state. -/
theorem reopen_is_noop (s : State) (row col : Int) :
    (∃ b s1, openCell s row col = some (b, s1) ∧ openCell s1 row col = some (true, s1)) ∧
    (isValid row col = false → openCell s row col = some (true, s)) ∧
    ((s.playerBoard.get row col).state = CellState.Revealed →
      openCell s row col = some (true, s)) := by
  refine ⟨?_, fun h => openCell_noop s row col (Or.inl h),
    fun h => openCell_noop s row col (Or.inr h)⟩
  obtain ⟨b, s1, hopen, hpost⟩ := openCell_post s row col
  refine ⟨b, s1, hopen, ?_⟩
  apply openCell_noop
  by_cases hv : isValid row col = true
  · exact Or.inr (hpost.2.1 hv)
  · left
    simpa using hv

/-- C10. Mine hit: `openCell(row, col)` on a cell of the grid that is not `Revealed` and
is a mine returns false, sets that visible cell to `Revealed`, leaves every other
visible cell, the truth grid and `movesLeft` unchanged. -/
theorem openCell_on_mine (s : State) (row col : Int) (hv : isValid row col = true)
    (hr : (s.playerBoard.get row col).state ≠ CellState.Revealed)
    (hm : (s.realBoard.get row col).isMine = true) :
    ∃ s', openCell s row col = some (false, s') ∧
      (s'.playerBoard.get row col).state = CellState.Revealed ∧
      (∀ r c, ¬ (r = row ∧ c = col) → s'.playerBoard.get r c = s.playerBoard.get r c) ∧
      s'.realBoard = s.realBoard ∧ s'.movesLeft = s.movesLeft ∧
      s'.turn = s.turn ∧ s'.gameOver = s.gameOver := by
  refine ⟨s.reveal row col, openCell_mine s row col hv hr hm, ?_, ?_, rfl, rfl, rfl, rfl⟩
  · rw [State.reveal_get, if_pos ⟨hv, rfl, rfl⟩]
  · intro r c hne
    have : ¬ (isValid row col = true ∧ r = row ∧ c = col) := fun h => hne h.2
    rw [State.reveal_get, if_neg this]

set_option maxRecDepth 1000000 in
theorem openCell_on_mine_witness :
    ∃ s', openCell sampleGame 3 3 = some (false, s') ∧
      (s'.playerBoard.get 3 3).state = CellState.Revealed ∧
      (∀ r c, ¬ (r = 3 ∧ c = 3) → s'.playerBoard.get r c = sampleGame.playerBoard.get r c) ∧
      s'.realBoard = sampleGame.realBoard ∧ s'.movesLeft = sampleGame.movesLeft ∧
      s'.turn = sampleGame.turn ∧ s'.gameOver = sampleGame.gameOver :=
  openCell_on_mine sampleGame 3 3 (by decide) (by decide) (by decide)

/-! ## Flags and the terminal state Revealed -/

theorem toggleFlag_of_hidden (s : State) (row col : Int)
    (hh : (s.playerBoard.get row col).state = CellState.Hidden) :
    toggleFlag s row col =
      ({ s with playerBoard := s.playerBoard.setState row col CellState.Flagged }, []) := by
  have h1 : ¬ ((s.playerBoard.get row col).state = CellState.Revealed) := by
    rw [hh]
    decide
  have h2 : ¬ ((s.playerBoard.get row col).state = CellState.Flagged) := by
    rw [hh]
    decide
  simp only [toggleFlag, h1, h2, if_false]

theorem toggleFlag_of_flagged (s : State) (row col : Int)
    (hf : (s.playerBoard.get row col).state = CellState.Flagged) :
    toggleFlag s row col =
      ({ s with playerBoard := s.playerBoard.setState row col CellState.Hidden }, []) := by
  have h1 : ¬ ((s.playerBoard.get row col).state = CellState.Revealed) := by
    rw [hf]
    decide
  unfold toggleFlag
  rw [if_neg h1, if_pos hf]

theorem toggleFlag_of_revealed (s : State) (row col : Int)
    (hr : (s.playerBoard.get row col).state = CellState.Revealed) :
    toggleFlag s row col = (s, [Message.cantFlagRevealed]) := by
  simp only [toggleFlag, hr, if_true]

theorem Board.setState_setState_self (b : Board) (row col : Int) (v : CellState) :
    (b.setState row col v).setState row col (b.get row col).state = b := by
  apply Board.ext_get
  intro r c _
  rw [Board.get_setState, Board.get_setState]
  by_cases h : isValid row col = true ∧ r = row ∧ c = col
  · obtain ⟨hv, rfl, rfl⟩ := h
    simp [hv]
  · rw [if_neg h, Board.get_setState, if_neg h]

/-- C11. Flag toggling is an involution: on a `Hidden` cell of the grid `toggleFlag`
makes the cell `Flagged`, a second `toggleFlag` makes it `Hidden` again, and the state
after the two calls is the state before them (visible grid, truth grid, `movesLeft`,
turn counter, `gameOver`); neither call prints a message. -/
theorem toggleFlag_twice (s : State) (row col : Int) (hv : isValid row col = true)
    (hh : (s.playerBoard.get row col).state = CellState.Hidden) :
    ((toggleFlag s row col).1.playerBoard.get row col).state = CellState.Flagged ∧
    ((toggleFlag (toggleFlag s row col).1 row col).1.playerBoard.get row col).state
      = CellState.Hidden ∧
    (toggleFlag (toggleFlag s row col).1 row col).1 = s ∧
    (toggleFlag s row col).2 = [] ∧ (toggleFlag (toggleFlag s row col).1 row col).2 = [] := by
  have h1 := toggleFlag_of_hidden s row col hh
  have hf : ((toggleFlag s row col).1.playerBoard.get row col).state = CellState.Flagged := by
    rw [h1]
    show ((s.playerBoard.setState row col CellState.Flagged).get row col).state = _
    rw [Board.get_setState, if_pos ⟨hv, rfl, rfl⟩]
  have h2 := toggleFlag_of_flagged (toggleFlag s row col).1 row col hf
  have hs : (toggleFlag (toggleFlag s row col).1 row col).1 = s := by
    rw [h2, h1]
    have hb := Board.setState_setState_self s.playerBoard row col CellState.Flagged
    rw [hh] at hb
    show ({ realBoard := s.realBoard,
            playerBoard := (s.playerBoard.setState row col CellState.Flagged).setState row col
              CellState.Hidden,
            movesLeft := s.movesLeft, turn := s.turn, gameOver := s.gameOver } : State) = s
    rw [hb]
  refine ⟨hf, ?_, hs, ?_, ?_⟩
  · rw [hs]
    exact hh
  · rw [h1]
  · rw [h2]

set_option maxRecDepth 1000000 in
theorem toggleFlag_twice_witness :
    ((toggleFlag sampleGame 3 3).1.playerBoard.get 3 3).state = CellState.Flagged ∧
    ((toggleFlag (toggleFlag sampleGame 3 3).1 3 3).1.playerBoard.get 3 3).state
      = CellState.Hidden ∧
    (toggleFlag (toggleFlag sampleGame 3 3).1 3 3).1 = sampleGame ∧
    (toggleFlag sampleGame 3 3).2 = [] ∧
    (toggleFlag (toggleFlag sampleGame 3 3).1 3 3).2 = [] :=
  toggleFlag_twice sampleGame 3 3 (by decide) (by decide)

theorem revealMines_revealed_mono (s : State) (p : Int × Int)
    (h : s.visible p = CellState.Revealed) : (revealMines s).visible p = CellState.Revealed := by
  rw [revealMines_visible]
  split
  · rfl
  · exact h

theorem step_revealed_mono (s : State) (cmd : Command) (p : Int × Int)
    (h : s.visible p = CellState.Revealed) :
    ∃ res, step s cmd = some res ∧ res.1.visible p = CellState.Revealed := by
  have hrel : (relocateOnFirstMove s cmd.row cmd.col).visible p = CellState.Revealed := by
    simp only [State.visible, (relocateOnFirstMove_frame s cmd.row cmd.col).1]
    exact h
  rcases step_cases s cmd with ⟨_, hs⟩ | ⟨_, _, hs⟩ | ⟨_, _, _, hs⟩ | ⟨_, _, _, hs⟩ |
    ⟨_, _, _, b, s2, _, hpost, hs⟩
  · exact ⟨_, hs, h⟩
  · exact ⟨_, hs, (toggleFlag_visible s cmd.row cmd.col p).2 h⟩
  · exact ⟨_, hs, h⟩
  · exact ⟨_, hs, hrel⟩
  · have h2 : s2.visible p = CellState.Revealed := hpost.1.revealed_mono hrel
    refine ⟨_, hs, ?_⟩
    have hfin : ∀ (g : Bool) (t : Int),
        ({ revealMines s2 with gameOver := g, turn := t } : State).visible p
          = CellState.Revealed := fun _ _ => revealMines_revealed_mono s2 p h2
    by_cases hb : b = false
    · rw [if_pos hb]
      exact hfin _ _
    · rw [if_neg hb]
      by_cases hz : s2.movesLeft = 0
      · rw [if_pos hz]
        exact hfin _ _
      · rw [if_neg hz]
        exact h2

/-- C12. `Revealed` is terminal: a visible cell that is `Revealed` is still `Revealed`
after `openCell` on any coordinates, after `toggleFlag` on any cell of the grid (on
that cell itself the call is rejected with a message and no change of state), after
`revealMines` and after any iteration of the loop of `run`. -/
theorem revealed_is_terminal (s : State) (r c : Int)
    (hr : (s.playerBoard.get r c).state = CellState.Revealed) :
    (∀ row col, ∃ b s', openCell s row col = some (b, s') ∧
      (s'.playerBoard.get r c).state = CellState.Revealed) ∧
    (∀ row col, isValid row col = true →
      ((toggleFlag s row col).1.playerBoard.get r c).state = CellState.Revealed) ∧
    toggleFlag s r c = (s, [Message.cantFlagRevealed]) ∧
    ((revealMines s).playerBoard.get r c).state = CellState.Revealed ∧
    (∀ cmd, ∃ res, step s cmd = some res ∧
      (res.1.playerBoard.get r c).state = CellState.Revealed) := by
  have hr' : s.visible (r, c) = CellState.Revealed := hr
  refine ⟨?_, ?_, toggleFlag_of_revealed s r c hr, revealMines_revealed_mono s (r, c) hr', ?_⟩
  · intro row col
    obtain ⟨b, s', hopen, hpost⟩ := openCell_post s row col
    exact ⟨b, s', hopen, hpost.1.revealed_mono hr'⟩
  · intro row col _
    exact (toggleFlag_visible s row col (r, c)).2 hr'
  · intro cmd
    exact step_revealed_mono s cmd (r, c) hr'

set_option maxRecDepth 1000000 in
theorem revealed_is_terminal_witness :
    ((sampleGame.reveal 9 0).playerBoard.get 9 0).state = CellState.Revealed ∧
    ((revealMines (sampleGame.reveal 9 0)).playerBoard.get 9 0).state = CellState.Revealed ∧
    toggleFlag (sampleGame.reveal 9 0) 9 0 = (sampleGame.reveal 9 0, [Message.cantFlagRevealed]) :=
  ⟨by decide, (revealed_is_terminal (sampleGame.reveal 9 0) 9 0 (by decide)).2.2.2.1,
    (revealed_is_terminal (sampleGame.reveal 9 0) 9 0 (by decide)).2.2.1⟩

/-! ## The end of the game and the life of the truth grid -/

theorem relocateOnFirstMove_of_turn (s : State) (row col : Int) (ht : s.turn ≠ 0) :
    relocateOnFirstMove s row col = s := by
  have : ¬ (s.turn = 0 ∧ (s.realBoard.get row col).isMine = true) := fun h => ht h.1
  rw [relocateOnFirstMove, if_neg this]

/-- An iteration that prints the loss message is an `open` on a mine of the grid that is
not `Revealed`: it reveals that cell and then all mines. -/
theorem step_loss {s : State} {cmd : Command} {res : State × List Message}
    (hs : step s cmd = some res) (hboom : Message.boom ∈ res.2) :
    isValid cmd.row cmd.col = true ∧
    (relocateOnFirstMove s cmd.row cmd.col).visible (cmd.row, cmd.col) ≠ CellState.Revealed ∧
    ((relocateOnFirstMove s cmd.row cmd.col).realBoard.get cmd.row cmd.col).isMine = true ∧
    res = ({ revealMines ((relocateOnFirstMove s cmd.row cmd.col).reveal cmd.row cmd.col) with
              gameOver := true
              turn := (relocateOnFirstMove s cmd.row cmd.col).turn + 1 }, [Message.boom]) := by
  rcases step_cases s cmd with ⟨_, h⟩ | ⟨_, _, h⟩ | ⟨_, _, _, h⟩ | ⟨_, _, _, h⟩ |
    ⟨hv, _, _, b, s2, hopen, hpost, h⟩
  · rw [hs] at h
    rw [Option.some.inj h] at hboom
    simp at hboom
  · rw [hs] at h
    rw [Option.some.inj h] at hboom
    unfold toggleFlag at hboom
    split at hboom <;> simp at hboom
  · rw [hs] at h
    rw [Option.some.inj h] at hboom
    simp at hboom
  · rw [hs] at h
    rw [Option.some.inj h] at hboom
    simp at hboom
  · rw [hs] at h
    have hres := Option.some.inj h
    cases b with
    | true =>
      have hne : ¬ (true = false) := by decide
      rw [if_neg hne] at hres
      rw [hres] at hboom
      split at hboom <;> simp at hboom
    | false =>
      rw [if_pos rfl] at hres
      obtain ⟨_, hnr, hmine⟩ := hpost.2.2.1 rfl
      have hopen' := openCell_mine _ cmd.row cmd.col hv hnr hmine
      rw [hopen] at hopen'
      have hs2 : s2 = (relocateOnFirstMove s cmd.row cmd.col).reveal cmd.row cmd.col :=
        (Prod.mk.inj (Option.some.inj hopen')).2
      refine ⟨hv, hnr, hmine, ?_⟩
      rw [hres, hs2]
      rfl

/-- C13. Forced mine reveal on termination: after `revealMines` every mine of the grid is
`Revealed` (also one that was `Flagged`), every non-mine visible cell is what it was,
and the truth grid is unchanged; hence an iteration of `run` on turn 1 or later that
ends in a loss leaves all mines `Revealed`, every non-mine visible cell as it was
before the iteration, the truth grid unchanged and the game over. -/
theorem revealMines_on_termination (s : State) :
    (∀ r c, isValid r c = true → (s.realBoard.get r c).isMine = true →
      ((revealMines s).playerBoard.get r c).state = CellState.Revealed) ∧
    (∀ r c, (s.realBoard.get r c).isMine = false →
      (revealMines s).playerBoard.get r c = s.playerBoard.get r c) ∧
    (revealMines s).realBoard = s.realBoard ∧
    (∀ cmd res, 1 ≤ s.turn → step s cmd = some res → endsInLoss res →
      (∀ r c, isValid r c = true → (res.1.realBoard.get r c).isMine = true →
        (res.1.playerBoard.get r c).state = CellState.Revealed) ∧
      (∀ r c, (res.1.realBoard.get r c).isMine = false →
        res.1.playerBoard.get r c = s.playerBoard.get r c) ∧
      res.1.realBoard = s.realBoard ∧ res.1.gameOver = true) := by
  refine ⟨?_, ?_, rfl, ?_⟩
  · intro r c hv hm
    rw [revealMines_get, if_pos ⟨hv, hm⟩]
  · intro r c hm
    have : ¬ (isValid r c = true ∧ (s.realBoard.get r c).isMine = true) := by
      rintro ⟨_, h⟩
      rw [hm] at h
      cases h
    rw [revealMines_get, if_neg this]
  · intro cmd res hturn hs hloss
    obtain ⟨hv, _, hmine, hres⟩ := step_loss hs hloss.2
    have ht : s.turn ≠ 0 := by omega
    rw [relocateOnFirstMove_of_turn s _ _ ht] at hmine hres
    rw [hres]
    refine ⟨?_, ?_, rfl, rfl⟩
    · intro r c hrv hm
      show ((revealMines (s.reveal cmd.row cmd.col)).playerBoard.get r c).state = _
      have hm' : ((s.reveal cmd.row cmd.col).realBoard.get r c).isMine = true := hm
      rw [revealMines_get, if_pos ⟨hrv, hm'⟩]
    · intro r c hm
      show (revealMines (s.reveal cmd.row cmd.col)).playerBoard.get r c = _
      have hm' : (s.realBoard.get r c).isMine = false := hm
      have h1 : ¬ (isValid r c = true ∧
          ((s.reveal cmd.row cmd.col).realBoard.get r c).isMine = true) := by
        rintro ⟨_, h⟩
        have h' : (s.realBoard.get r c).isMine = true := h
        rw [hm'] at h'
        cases h'
      have h2 : ¬ (isValid cmd.row cmd.col = true ∧ r = cmd.row ∧ c = cmd.col) := by
        rintro ⟨_, rfl, rfl⟩
        rw [hmine] at hm'
        cases hm'
      rw [revealMines_get, if_neg h1, State.reveal_get, if_neg h2]

set_option maxRecDepth 1000000 in
theorem revealMines_on_termination_witness :
    (∀ r c, isValid r c = true →
      (({ revealMines (lateGame.reveal 3 3) with gameOver := true, turn := 2 } :
        State).realBoard.get r c).isMine = true →
      (({ revealMines (lateGame.reveal 3 3) with gameOver := true, turn := 2 } :
        State).playerBoard.get r c).state = CellState.Revealed) ∧
    (∀ r c, (({ revealMines (lateGame.reveal 3 3) with gameOver := true, turn := 2 } :
        State).realBoard.get r c).isMine = false →
      ({ revealMines (lateGame.reveal 3 3) with gameOver := true, turn := 2 } :
        State).playerBoard.get r c = lateGame.playerBoard.get r c) ∧
    ({ revealMines (lateGame.reveal 3 3) with gameOver := true, turn := 2 } :
        State).realBoard = lateGame.realBoard ∧
    ({ revealMines (lateGame.reveal 3 3) with gameOver := true, turn := 2 } :
        State).gameOver = true :=
  (revealMines_on_termination lateGame).2.2.2 ⟨3, 3, 'o'⟩
    ({ revealMines (lateGame.reveal 3 3) with gameOver := true, turn := 2 }, [Message.boom])
    (by decide) (by rfl) ⟨rfl, List.mem_singleton.2 rfl⟩

theorem step_realBoard {s : State} {cmd : Command} {res : State × List Message}
    (hs : step s cmd = some res) :
    res.1.realBoard = s.realBoard ∨
    (isValid cmd.row cmd.col = true ∧ cmd.action.toLower = 'o' ∧ s.turn = 0 ∧
      (s.realBoard.get cmd.row cmd.col).isMine = true ∧
      res.1.realBoard = calculateAdjacents (relocateMine s.realBoard cmd.row cmd.col)) := by
  have hrel : ∀ hv : isValid cmd.row cmd.col = true, cmd.action.toLower = 'o' →
      (relocateOnFirstMove s cmd.row cmd.col).realBoard = s.realBoard ∨
      (isValid cmd.row cmd.col = true ∧ cmd.action.toLower = 'o' ∧ s.turn = 0 ∧
        (s.realBoard.get cmd.row cmd.col).isMine = true ∧
        (relocateOnFirstMove s cmd.row cmd.col).realBoard =
          calculateAdjacents (relocateMine s.realBoard cmd.row cmd.col)) := by
    intro hv ho
    by_cases hc : s.turn = 0 ∧ (s.realBoard.get cmd.row cmd.col).isMine = true
    · right
      refine ⟨hv, ho, hc.1, hc.2, ?_⟩
      rw [relocateOnFirstMove, if_pos hc]
    · left
      rw [relocateOnFirstMove, if_neg hc]
  rcases step_cases s cmd with ⟨_, h⟩ | ⟨_, _, h⟩ | ⟨_, _, _, h⟩ | ⟨hv, ho, _, h⟩ |
    ⟨hv, ho, _, b, s2, _, hpost, h⟩
  · rw [hs] at h
    rw [Option.some.inj h]
    exact Or.inl rfl
  · rw [hs] at h
    rw [Option.some.inj h]
    exact Or.inl (toggleFlag_frame s cmd.row cmd.col).1
  · rw [hs] at h
    rw [Option.some.inj h]
    exact Or.inl rfl
  · rw [hs] at h
    rw [Option.some.inj h]
    exact hrel hv ho
  · rw [hs] at h
    have hreal : res.1.realBoard = (relocateOnFirstMove s cmd.row cmd.col).realBoard := by
      rw [Option.some.inj h, ← hpost.1.1]
      by_cases hb : b = false
      · rw [if_pos hb]
        rfl
      · rw [if_neg hb]
        by_cases hz : s2.movesLeft = 0
        · rw [if_pos hz]
          rfl
        · rw [if_neg hz]
    rw [hreal]
    exact hrel hv ho

set_option maxRecDepth 1000000 in
/-- C14 on the failing input: from the initial sample game the commands `3 3 f`,
`3 3 o`, `5 1 f`, `5 1 o` are processed with the turn counter at 0 throughout; both
`open` commands are rejected because the cell is flagged, and each of them changes the
mine layout of the truth grid (the mine at (3, 3) moves to (0, 1), then the mine at
(5, 1) moves to (0, 2)). -/
theorem two_relocations_on_turn_zero :
    newGame sampleDraws = some sampleGame ∧
    step sampleGame ⟨3, 3, 'f'⟩ = some (flaggedMineGame, []) ∧
    step flaggedMineGame ⟨3, 3, 'o'⟩ = some (rejectedGame, [Message.cellIsFlagged]) ∧
    step rejectedGame ⟨5, 1, 'f'⟩ = some (reflaggedGame, []) ∧
    step reflaggedGame ⟨5, 1, 'o'⟩ = some (rejectedAgainGame, [Message.cellIsFlagged]) ∧
    ((flaggedMineGame.realBoard.get 3 3).isMine = true ∧
      (flaggedMineGame.realBoard.get 0 1).isMine = false ∧
      (rejectedGame.realBoard.get 3 3).isMine = false ∧
      (rejectedGame.realBoard.get 0 1).isMine = true) ∧
    ((reflaggedGame.realBoard.get 5 1).isMine = true ∧
      (reflaggedGame.realBoard.get 0 2).isMine = false ∧
      (rejectedAgainGame.realBoard.get 5 1).isMine = false ∧
      (rejectedAgainGame.realBoard.get 0 2).isMine = true) ∧
    rejectedAgainGame.turn = 0 ∧ rejectedAgainGame.gameOver = false := by
  refine ⟨by rfl, by rfl, by rfl, by rfl, by rfl, by decide, by decide, by decide, by decide⟩

/-! ## Exact adjacency counts in every reachable state -/

theorem exactAdjacency_step {s : State} {cmd : Command} {res : State × List Message}
    (hs : step s cmd = some res) (h : ExactAdjacency s.realBoard) :
    ExactAdjacency res.1.realBoard := by
  rcases step_realBoard hs with e | ⟨_, _, _, _, e⟩
  · rw [e]
    exact h
  · rw [e]
    exact exactAdjacency_calculateAdjacents _

theorem exactAdjacency_reachable {s0 s : State} (h0 : ExactAdjacency s0.realBoard)
    (h : Reachable s0 s) : ExactAdjacency s.realBoard := by
  induction h with
  | start => exact h0
  | next cmd _ _ hstep ih => exact exactAdjacency_step hstep ih

theorem newGame_realBoard {draws : List (Int × Int)} {s0 : State}
    (h : newGame draws = some s0) :
    ∃ layout, placeMines Board.fresh draws = some layout ∧
      s0.realBoard = calculateAdjacents layout ∧ s0.playerBoard = Board.fresh ∧
      s0.movesLeft = SIDE * SIDE - MINES ∧ s0.turn = 0 ∧ s0.gameOver = false := by
  unfold newGame at h
  rw [Option.map_eq_some'] at h
  obtain ⟨layout, hp, hs⟩ := h
  subst hs
  refine ⟨layout, hp, ?_, ?_, ?_, ?_, ?_⟩ <;> dsimp only

/-- C15. In every state that the loop of `run` reaches from the state set up by
`placeMines` followed by `calculateAdjacents` (the states after a first-move
relocation included), every non-mine cell of the truth grid stores the exact number of
its neighbours inside the grid that are mines in that truth grid. -/
theorem adjacency_exact_in_reachable_states (draws : List (Int × Int)) (s0 s : State)
    (h0 : newGame draws = some s0) (hreach : Reachable s0 s) :
    ∀ r c, isValid r c = true → (s.realBoard.get r c).isMine = false →
      (s.realBoard.get r c).adjacentMines = (mineNeighbours s.realBoard r c : Int) := by
  obtain ⟨layout, _, hreal, _⟩ := newGame_realBoard h0
  have hexact : ExactAdjacency s0.realBoard := by
    rw [hreal]
    exact exactAdjacency_calculateAdjacents layout
  exact exactAdjacency_reachable hexact hreach

set_option maxRecDepth 1000000 in
theorem adjacency_exact_in_reachable_states_witness :
    (rejectedGame.realBoard.get 1 1).adjacentMines = 2 ∧
    (rejectedGame.realBoard.get 1 1).adjacentMines =
      (mineNeighbours rejectedGame.realBoard 1 1 : Int) :=
  ⟨by decide,
    adjacency_exact_in_reachable_states sampleDraws sampleGame rejectedGame (by rfl)
      (Reachable.next ⟨3, 3, 'o'⟩
        (Reachable.next ⟨3, 3, 'f'⟩ Reachable.start rfl (by rfl)) rfl (by rfl))
      1 1 (by decide) (by decide)⟩

/-! ## placeMines -/

set_option maxRecDepth 1000000 in
theorem fresh_not_mine (p : Int × Int) : (Board.fresh.get p.1 p.2).isMine = false := by
  by_cases hv : isValid p.1 p.2 = true
  · have h : ∀ q ∈ cells, (Board.fresh.get q.1 q.2).isMine = false := by decide
    exact h p ((mem_cells p).2 hv)
  · have hv' : isValid p.1 p.2 = false := by simpa using hv
    rw [Board.get_invalid _ _ _ hv']

theorem mineCount_fresh : mineCount Board.fresh = 0 := by
  unfold mineCount
  rw [List.countP_eq_zero]
  intro p _
  rw [fresh_not_mine]
  decide

theorem mineCount_setMine (b : Board) (d : Int × Int) (hv : isValid d.1 d.2 = true)
    (hm : (b.get d.1 d.2).isMine = false) :
    mineCount (b.setMine d.1 d.2 true) = mineCount b + 1 := by
  apply countP_flip cells cells_nodup d ((mem_cells d).2 hv)
  · intro y hy
    have : ¬ (isValid d.1 d.2 = true ∧ y.1 = d.1 ∧ y.2 = d.2) :=
      fun h => hy (Prod.ext h.2.1 h.2.2)
    rw [Board.get_setMine, if_neg this]
  · exact hm
  · rw [Board.get_setMine, if_pos ⟨hv, rfl, rfl⟩]

theorem placeMinesDraw_of_mine (b : Board) (placed : Int) (d : Int × Int)
    (hm : (b.get d.1 d.2).isMine = true) : placeMinesDraw b placed d = (b, placed) := by
  simp only [placeMinesDraw, hm, Bool.not_true, Bool.false_eq_true, if_false]

theorem placeMinesDraw_of_free (b : Board) (placed : Int) (d : Int × Int)
    (hm : (b.get d.1 d.2).isMine = false) :
    placeMinesDraw b placed d = (b.setMine d.1 d.2 true, placed + 1) := by
  simp only [placeMinesDraw, hm, Bool.not_false, if_true]

theorem placeMinesLoop_spec (draws : List (Int × Int)) (b : Board) (placed : Int)
    (layout : Board) (hvalid : ∀ d ∈ draws, isValid d.1 d.2 = true)
    (hcount : (mineCount b : Int) = placed) (hle : placed ≤ MINES)
    (h : placeMinesLoop b placed draws = some layout) :
    (mineCount layout : Int) = MINES ∧
    ∀ r c, (layout.get r c).isMine = true → (b.get r c).isMine = true ∨ (r, c) ∈ draws := by
  induction draws generalizing b placed with
  | nil =>
    unfold placeMinesLoop at h
    by_cases hlt : placed < MINES
    · rw [if_pos hlt] at h
      cases h
    · rw [if_neg hlt] at h
      have := Option.some.inj h
      subst this
      exact ⟨by omega, fun r c hm => Or.inl hm⟩
  | cons d ds ih =>
    unfold placeMinesLoop at h
    by_cases hlt : placed < MINES
    · rw [if_pos hlt] at h
      have hvd : isValid d.1 d.2 = true := hvalid d (List.mem_cons_self _ _)
      have hvs : ∀ x ∈ ds, isValid x.1 x.2 = true :=
        fun x hx => hvalid x (List.mem_cons_of_mem _ hx)
      cases hm : (b.get d.1 d.2).isMine with
      | true =>
        rw [placeMinesDraw_of_mine b placed d hm] at h
        obtain ⟨i1, i2⟩ := ih b placed hvs hcount hle h
        refine ⟨i1, fun r c hrc => ?_⟩
        rcases i2 r c hrc with e | e
        · exact Or.inl e
        · exact Or.inr (List.mem_cons_of_mem _ e)
      | false =>
        rw [placeMinesDraw_of_free b placed d hm] at h
        have hc := mineCount_setMine b d hvd hm
        obtain ⟨i1, i2⟩ := ih (b.setMine d.1 d.2 true) (placed + 1) hvs
          (by rw [hc]; push_cast; omega) (by omega) h
        refine ⟨i1, fun r c hrc => ?_⟩
        rcases i2 r c hrc with e | e
        · rw [Board.get_setMine] at e
          by_cases hd : isValid d.1 d.2 = true ∧ r = d.1 ∧ c = d.2
          · right
            rw [hd.2.1, hd.2.2]
            exact List.mem_cons_self _ _
          · rw [if_neg hd] at e
            exact Or.inl e
        · exact Or.inr (List.mem_cons_of_mem _ e)
    · rw [if_neg hlt] at h
      have := Option.some.inj h
      subst this
      exact ⟨by omega, fun r c hm => Or.inl hm⟩

/-- C16. Mine generation places exactly `MINES` distinct mines: starting from the grid
without mines, for every sequence of draws inside the grid on which the loop of
`placeMines` finishes, the resulting grid has exactly `MINES` mine cells, each at a
position that was drawn, and a draw that hits a mine changes neither the grid nor the
counter `placed`. -/
theorem placeMines_places_mines (draws : List (Int × Int)) (layout : Board)
    (hvalid : ∀ d ∈ draws, isValid d.1 d.2 = true)
    (h : placeMines Board.fresh draws = some layout) :
    (mineCount layout : Int) = MINES ∧
    (∀ r c, (layout.get r c).isMine = true → (r, c) ∈ draws) ∧
    (∀ (b : Board) (placed : Int) (d : Int × Int), (b.get d.1 d.2).isMine = true →
      placeMinesDraw b placed d = (b, placed)) := by
  obtain ⟨h1, h2⟩ := placeMinesLoop_spec draws Board.fresh 0 layout hvalid
    (by rw [mineCount_fresh]; rfl) (by decide) h
  refine ⟨h1, ?_, placeMinesDraw_of_mine⟩
  intro r c hm
  rcases h2 r c hm with e | e
  · rw [fresh_not_mine (r, c)] at e
    cases e
  · exact e

set_option maxRecDepth 1000000 in
theorem placeMines_places_mines_witness :
    (mineCount sampleLayout : Int) = MINES ∧
    (∀ r c, (sampleLayout.get r c).isMine = true → (r, c) ∈ sampleDraws) ∧
    (∀ (b : Board) (placed : Int) (d : Int × Int), (b.get d.1 d.2).isMine = true →
      placeMinesDraw b placed d = (b, placed)) :=
  placeMines_places_mines sampleDraws sampleLayout (by decide) (by rfl)

/-! ## relocateMine: the first free cell -/

set_option maxRecDepth 1000000 in
theorem cells_pairwise : cells.Pairwise rowMajorLT := by
  unfold rowMajorLT
  decide

theorem relocateTarget_first {b : Board} {ar ac : Int} {p : Int × Int}
    (h : relocateTarget b ar ac = some p) (q : Int × Int) (hq : isValid q.1 q.2 = true)
    (hne : q ≠ (ar, ac)) (hm : (b.get q.1 q.2).isMine = false) : rowMajorLE p q := by
  unfold relocateTarget at h
  rw [List.find?_eq_some] at h
  obtain ⟨_, as, bs, hsplit, hbefore⟩ := h
  have hpw := cells_pairwise
  rw [hsplit, List.pairwise_append] at hpw
  have hmem : q ∈ as ++ p :: bs := by
    rw [← hsplit]
    exact (mem_cells q).2 hq
  rcases List.mem_append.1 hmem with hin | hin
  · exfalso
    have := hbefore q hin
    have hq' : ¬ (q.1 = ar ∧ q.2 = ac) := fun e => hne (Prod.ext e.1 e.2)
    simp only [hm, Bool.not_false, Bool.and_true, Bool.not_not, Bool.and_eq_true,
      beq_iff_eq] at this
    exact hq' this
  · rcases List.mem_cons.1 hin with e | e
    · rw [e]
      exact Or.inr ⟨rfl, le_refl _⟩
    · have hlt : rowMajorLT p q := (List.pairwise_cons.1 hpw.2.1).1 q e
      rcases hlt with h1 | ⟨h1, h2⟩
      · exact Or.inl h1
      · exact Or.inr ⟨h1, le_of_lt h2⟩

theorem relocateTarget_none {b : Board} {ar ac : Int} (h : relocateTarget b ar ac = none)
    (q : Int × Int) (hq : isValid q.1 q.2 = true) (hne : q ≠ (ar, ac)) :
    (b.get q.1 q.2).isMine = true := by
  unfold relocateTarget at h
  rw [List.find?_eq_none] at h
  have := h q ((mem_cells q).2 hq)
  have hq' : ¬ (q.1 = ar ∧ q.2 = ac) := fun e => hne (Prod.ext e.1 e.2)
  cases hm : (b.get q.1 q.2).isMine with
  | true => rfl
  | false =>
    exfalso
    have hb : (q.1 == ar && q.2 == ac) = false := by
      cases hx : (q.1 == ar && q.2 == ac) with
      | false => rfl
      | true =>
        simp only [Bool.and_eq_true, beq_iff_eq] at hx
        exact absurd hx hq'
    rw [hm, hb] at this
    exact this rfl

theorem relocateMine_get_other (b : Board) (ar ac : Int) (p : Int × Int)
    (h : relocateTarget b ar ac = some p) (r c : Int) (h1 : (r, c) ≠ p)
    (h2 : (r, c) ≠ (ar, ac)) : (relocateMine b ar ac).get r c = b.get r c := by
  have a1 : ¬ (isValid ar ac = true ∧ r = ar ∧ c = ac) :=
    fun e => h2 (Prod.ext e.2.1 e.2.2)
  have a2 : ¬ (isValid p.1 p.2 = true ∧ r = p.1 ∧ c = p.2) :=
    fun e => h1 (Prod.ext e.2.1 e.2.2)
  simp only [relocateMine, h]
  rw [Board.get_setMine, if_neg a1, Board.get_setMine, if_neg a2]

/-- C17. `relocateMine` picks the first free cell in row-major order: for an avoided
cell of the grid, if some other cell of the grid is not a mine, then after
`relocateMine` the row-major-least such cell is a mine, the avoided cell is not a mine
and every other cell is unchanged; if there is no such cell, the grid is unchanged. -/
theorem relocateMine_first_free (b : Board) (avoidRow avoidCol : Int)
    (hv : isValid avoidRow avoidCol = true) :
    ((∃ q : Int × Int, isValid q.1 q.2 = true ∧ q ≠ (avoidRow, avoidCol) ∧
        (b.get q.1 q.2).isMine = false) →
      ∃ p : Int × Int, isValid p.1 p.2 = true ∧ p ≠ (avoidRow, avoidCol) ∧
        (b.get p.1 p.2).isMine = false ∧
        (∀ q : Int × Int, isValid q.1 q.2 = true → q ≠ (avoidRow, avoidCol) →
          (b.get q.1 q.2).isMine = false → rowMajorLE p q) ∧
        ((relocateMine b avoidRow avoidCol).get p.1 p.2).isMine = true ∧
        ((relocateMine b avoidRow avoidCol).get avoidRow avoidCol).isMine = false ∧
        (∀ r c, (r, c) ≠ p → (r, c) ≠ (avoidRow, avoidCol) →
          (relocateMine b avoidRow avoidCol).get r c = b.get r c)) ∧
    ((¬ ∃ q : Int × Int, isValid q.1 q.2 = true ∧ q ≠ (avoidRow, avoidCol) ∧
        (b.get q.1 q.2).isMine = false) →
      relocateMine b avoidRow avoidCol = b) := by
  constructor
  · rintro ⟨q, hq, hqne, hqm⟩
    cases h : relocateTarget b avoidRow avoidCol with
    | none =>
      have := relocateTarget_none h q hq hqne
      rw [hqm] at this
      cases this
    | some p =>
      obtain ⟨hpv, hpne, hpm⟩ := relocateTarget_some h
      have hpne' : p ≠ (avoidRow, avoidCol) := by
        intro e
        apply hpne
        rw [e]
        exact ⟨rfl, rfl⟩
      refine ⟨p, hpv, hpne', hpm, relocateTarget_first h, ?_, ?_,
        relocateMine_get_other b avoidRow avoidCol p h⟩
      · rw [relocateMine_get_isMine b avoidRow avoidCol p h hv, if_neg hpne]
        simp
      · rw [relocateMine_get_isMine b avoidRow avoidCol p h hv]
        simp
  · intro hno
    cases h : relocateTarget b avoidRow avoidCol with
    | none => simp only [relocateMine, h]
    | some p =>
      exfalso
      obtain ⟨hpv, hpne, hpm⟩ := relocateTarget_some h
      apply hno
      refine ⟨p, hpv, ?_, hpm⟩
      intro e
      apply hpne
      rw [e]
      exact ⟨rfl, rfl⟩

set_option maxRecDepth 1000000 in
theorem relocateMine_first_free_witness :
    isValid 3 3 = true ∧ (sampleLayout.get 0 0).isMine = true ∧
    (sampleLayout.get 0 1).isMine = false ∧
    ((relocateMine sampleLayout 3 3).get 0 1).isMine = true ∧
    ((relocateMine sampleLayout 3 3).get 3 3).isMine = false ∧
    ((∃ q : Int × Int, isValid q.1 q.2 = true ∧ q ≠ (3, 3) ∧
        (sampleLayout.get q.1 q.2).isMine = false) →
      ∃ p : Int × Int, isValid p.1 p.2 = true ∧ p ≠ (3, 3) ∧
        (sampleLayout.get p.1 p.2).isMine = false ∧
        (∀ q : Int × Int, isValid q.1 q.2 = true → q ≠ (3, 3) →
          (sampleLayout.get q.1 q.2).isMine = false → rowMajorLE p q) ∧
        ((relocateMine sampleLayout 3 3).get p.1 p.2).isMine = true ∧
        ((relocateMine sampleLayout 3 3).get 3 3).isMine = false ∧
        (∀ r c, (r, c) ≠ p → (r, c) ≠ (3, 3) →
          (relocateMine sampleLayout 3 3).get r c = sampleLayout.get r c)) :=
  ⟨by decide, by decide, by decide, by decide, by decide,
    (relocateMine_first_free sampleLayout 3 3 (by decide)).1⟩

/-! ## openCell: termination -/

theorem foldlM_option_mono {α β : Type} (f g : β → α → Option β)
    (hfg : ∀ b a b', f b a = some b' → g b a = some b') (l : List α) (b b' : β)
    (h : l.foldlM f b = some b') : l.foldlM g b = some b' := by
  induction l generalizing b with
  | nil => exact h
  | cons a l ih =>
    rw [List.foldlM_cons] at h ⊢
    cases hf : f b a with
    | none =>
      rw [hf] at h
      cases h
    | some b1 =>
      rw [hf] at h
      rw [hfg b a b1 hf]
      exact ih b1 h

theorem openCellFuel_mono (fuel fuel' : Nat) (hle : fuel ≤ fuel') (s : State) (row col : Int)
    (res : Bool × State) (h : openCellFuel fuel s row col = some res) :
    openCellFuel fuel' s row col = some res := by
  induction fuel generalizing fuel' s row col res with
  | zero => simp [openCellFuel] at h
  | succ fuel ih =>
    obtain ⟨k, rfl⟩ : ∃ k, fuel' = k + 1 := ⟨fuel' - 1, by omega⟩
    have hk : fuel ≤ k := by omega
    rw [openCellFuel_succ] at h ⊢
    by_cases hv : isValid row col = false
    · rw [if_pos hv] at h ⊢
      exact h
    · rw [if_neg hv] at h ⊢
      by_cases hr : s.visible (row, col) = CellState.Revealed
      · rw [if_pos hr] at h ⊢
        exact h
      · rw [if_neg hr] at h ⊢
        by_cases hm : (s.realBoard.get row col).isMine = true
        · rw [if_pos hm] at h ⊢
          exact h
        · rw [if_neg hm] at h ⊢
          by_cases hz : (s.realBoard.get row col).adjacentMines = 0
          · rw [if_pos hz] at h ⊢
            rw [Option.map_eq_some'] at h ⊢
            obtain ⟨st, hst, hres⟩ := h
            refine ⟨st, ?_, hres⟩
            apply foldlM_option_mono _ _ _ directions _ _ hst
            intro b a b' hb
            by_cases hg : cascadeGuard b row col a = true
            · rw [if_pos hg] at hb ⊢
              rw [Option.map_eq_some'] at hb ⊢
              obtain ⟨x, hx, hx'⟩ := hb
              exact ⟨x, ih k hk _ _ _ _ hx, hx'⟩
            · rw [if_neg hg] at hb ⊢
              exact hb
          · rw [if_neg hz] at h ⊢
            exact h

theorem unrevealed_le_cells (s : State) : unrevealed s ≤ 100 := by
  have := List.countP_le_length (fun p => decide (s.visible p ≠ CellState.Revealed)) (l := cells)
  rw [cells_length] at this
  exact this

theorem openCellFuel_eq_openCell (fuel : Nat) (s : State) (row col : Int) (h1 : 1 ≤ fuel)
    (h2 : unrevealed s ≤ fuel) : openCellFuel fuel s row col = openCell s row col := by
  obtain ⟨b, s', h⟩ := openCellFuel_total fuel s row col h1 h2
  obtain ⟨b0, s0, h0⟩ := openCellFuel_total 100 s row col (by omega) (unrevealed_le_cells s)
  have e1 := openCellFuel_mono fuel (max fuel 100) (le_max_left _ _) s row col _ h
  have e2 := openCellFuel_mono 100 (max fuel 100) (le_max_right _ _) s row col _ h0
  rw [e1] at e2
  rw [h]
  show _ = openCellFuel 100 s row col
  rw [h0, Option.some.inj e2]

theorem unrevealed_lt_of_cascade {root : Int × Int} {s s' : State} (h : Cascade root s s')
    (x : Int × Int) (hv : isValid x.1 x.2 = true) (hx : s.visible x ≠ CellState.Revealed)
    (hx' : s'.visible x = CellState.Revealed) : unrevealed s' < unrevealed s := by
  have h1 : cells.countP (fun p => decide (p = x) || decide (s'.visible p ≠ CellState.Revealed))
      = unrevealed s' + 1 := by
    apply countP_flip cells cells_nodup x ((mem_cells x).2 hv)
    · intro y hy
      simp [hy]
    · simp [hx']
    · simp
  have h2 : cells.countP (fun p => decide (p = x) || decide (s'.visible p ≠ CellState.Revealed))
      ≤ unrevealed s := by
    apply List.countP_mono_left
    intro p _ hp
    simp only [Bool.or_eq_true, decide_eq_true_eq] at hp ⊢
    rcases hp with e | e
    · rw [e]
      exact hx
    · exact fun hs => e (h.revealed_mono hs)
  omega

theorem measure_loop {fuel : Nat} {s : State} {row col : Int} {ds : List (Int × Int)}
    {st s' : State}
    (hloop : CascadeLoop (fun st r c b st1 => openCellFuel fuel st r c = some (b, st1))
      row col ds st s')
    (hlt : unrevealed st < unrevealed s) :
    CascadeLoop (fun st r c b st1 =>
      openCellFuel fuel st r c = some (b, st1) ∧ st.visible (r, c) = CellState.Hidden ∧
        unrevealed st < unrevealed s ∧ unrevealed st1 < unrevealed st)
      row col ds st s' := by
  induction hloop with
  | done _ => exact CascadeLoop.done _
  | skip hg _ ih => exact CascadeLoop.skip hg (ih hlt)
  | @call d ds st st1 s' b hg hc _ ih =>
    have hg' := (cascadeGuard_iff st row col d).1 hg
    have hpost := openCellFuel_post _ _ _ _ _ _ hc
    have hdec : unrevealed st1 < unrevealed st := by
      apply unrevealed_lt_of_cascade hpost.1 (row + d.1, col + d.2) hg'.1
      · rw [hg'.2]
        decide
      · exact hpost.2.1 hg'.1
    exact CascadeLoop.call hg ⟨hc, hg'.2, hlt, hdec⟩ (ih (by omega))

/-- C18. The recursive flood-fill terminates on every input: `openCell` returns on
every state and every (row, col) with recursion depth at most `SIDE * SIDE`, and every
depth that is positive and at least the number of cells not yet `Revealed` gives the
same result; a call that gets past the check for `Revealed` lowers that number by one
with its assignment; every recursive call of its loop is made on a cell that is
`Hidden` at that moment, starts with strictly fewer cells not `Revealed` than its
caller started with and ends with strictly fewer than it started with; and a cell that
is `Revealed` is not written again. -/
theorem openCell_terminates (s : State) (row col : Int) :
    (∃ b s', openCell s row col = some (b, s')) ∧
    openCell s row col = openCellFuel (SIDE * SIDE).toNat s row col ∧
    unrevealed s ≤ (SIDE * SIDE).toNat ∧
    (∀ fuel, 1 ≤ fuel → unrevealed s ≤ fuel →
      openCellFuel fuel s row col = openCell s row col) ∧
    (isValid row col = true → (s.playerBoard.get row col).state ≠ CellState.Revealed →
      unrevealed (s.reveal row col) + 1 = unrevealed s) ∧
    (∀ fuel b s', openCellFuel (fuel + 1) s row col = some (b, s') →
      isValid row col = true → (s.playerBoard.get row col).state ≠ CellState.Revealed →
      (s.realBoard.get row col).isMine = false →
      (s.realBoard.get row col).adjacentMines = 0 →
      CascadeLoop (fun st r c b1 st1 =>
        openCellFuel fuel st r c = some (b1, st1) ∧ st.visible (r, c) = CellState.Hidden ∧
          unrevealed st < unrevealed s ∧ unrevealed st1 < unrevealed st)
        row col directions ((s.reveal row col).countDown) s') ∧
    (∀ b s', openCell s row col = some (b, s') →
      unrevealed s' ≤ unrevealed s ∧
      ∀ r c, (s.playerBoard.get r c).state = CellState.Revealed →
        s'.playerBoard.get r c = s.playerBoard.get r c) := by
  refine ⟨?_, rfl, unrevealed_le_cells s, ?_, ?_, ?_, ?_⟩
  · obtain ⟨b, s', h, _⟩ := openCell_post s row col
    exact ⟨b, s', h⟩
  · intro fuel h1 h2
    exact openCellFuel_eq_openCell fuel s row col h1 h2
  · intro hv hr
    exact (unrevealed_reveal s row col hv hr).symm
  · intro fuel b s' h hv hr hm hz
    rw [openCellFuel_succ] at h
    have hv' : ¬ (isValid row col = false) := by simp [hv]
    have hm' : ¬ ((s.realBoard.get row col).isMine = true) := by simp [hm]
    have hr' : ¬ (s.visible (row, col) = CellState.Revealed) := hr
    rw [if_neg hv', if_neg hr', if_neg hm', if_pos hz, Option.map_eq_some'] at h
    obtain ⟨st, hst, hres⟩ := h
    have hs' : st = s' := (Prod.mk.inj hres).2
    subst hs'
    apply measure_loop (cascadeLoop_of_foldlM fuel row col directions _ _ hst)
    have hu := unrevealed_reveal s row col hv hr
    have hu' : unrevealed (s.reveal row col).countDown = unrevealed (s.reveal row col) := rfl
    omega
  · intro b s' h
    have hpost := openCellFuel_post _ _ _ _ _ _ h
    refine ⟨hpost.1.unrevealed_le, ?_⟩
    intro r c hrev
    rcases hpost.1.2.2.2.1 r c with e | ⟨_, hne, _⟩
    · exact e
    · exact absurd hrev hne

theorem openCell_terminates_witness :
    (∃ b s', openCell sampleGame 9 0 = some (b, s')) ∧
    openCellFuel 100 sampleGame 9 0 = openCell sampleGame 9 0 :=
  ⟨(openCell_terminates sampleGame 9 0).1,
    (openCell_terminates sampleGame 9 0).2.2.2.1 100 (by decide) (unrevealed_le_cells _)⟩

/-! ## openCell: what stays as it is, and the counter -/

/-- C19. The cascade skips flags and never touches the truth grid: `openCell(row, col)`
returns, leaves the truth grid unchanged, leaves every `Flagged` visible cell other
than (row, col) as it is, and changes a visible cell only from not `Revealed` to
`Revealed`. -/
theorem openCell_skips_flags (s : State) (row col : Int) :
    ∃ b s', openCell s row col = some (b, s') ∧
      s'.realBoard = s.realBoard ∧
      (∀ r c, ¬ (r = row ∧ c = col) → (s.playerBoard.get r c).state = CellState.Flagged →
        s'.playerBoard.get r c = s.playerBoard.get r c ∧
        (s'.playerBoard.get r c).state = CellState.Flagged) ∧
      (∀ r c, s'.playerBoard.get r c ≠ s.playerBoard.get r c →
        (s.playerBoard.get r c).state ≠ CellState.Revealed ∧
        (s'.playerBoard.get r c).state = CellState.Revealed ∧
        s'.playerBoard.get r c =
          { s.playerBoard.get r c with state := CellState.Revealed }) := by
  obtain ⟨b, s', hopen, hpost⟩ := openCell_post s row col
  refine ⟨b, s', hopen, hpost.1.1, ?_, ?_⟩
  · intro r c hne hf
    have hsame : s'.playerBoard.get r c = s.playerBoard.get r c := by
      rcases hpost.1.2.2.2.1 r c with e | ⟨_, _, hroot, _⟩
      · exact e
      · exfalso
        rcases hroot with e | e
        · exact hne ⟨congrArg Prod.fst e, congrArg Prod.snd e⟩
        · rw [hf] at e
          cases e
    exact ⟨hsame, by rw [hsame]; exact hf⟩
  · intro r c hchg
    rcases hpost.1.2.2.2.1 r c with e | ⟨_, hnr, _, e⟩
    · exact absurd e hchg
    · exact ⟨hnr, by rw [e], e⟩

set_option maxRecDepth 1000000 in
theorem openCell_skips_flags_witness :
    (flaggedGame.playerBoard.get 0 1).state = CellState.Flagged ∧
    ∃ b s', openCell flaggedGame 9 0 = some (b, s') ∧
      s'.realBoard = flaggedGame.realBoard ∧
      (∀ r c, ¬ (r = 9 ∧ c = 0) → (flaggedGame.playerBoard.get r c).state = CellState.Flagged →
        s'.playerBoard.get r c = flaggedGame.playerBoard.get r c ∧
        (s'.playerBoard.get r c).state = CellState.Flagged) ∧
      (∀ r c, s'.playerBoard.get r c ≠ flaggedGame.playerBoard.get r c →
        (flaggedGame.playerBoard.get r c).state ≠ CellState.Revealed ∧
        (s'.playerBoard.get r c).state = CellState.Revealed ∧
        s'.playerBoard.get r c =
          { flaggedGame.playerBoard.get r c with state := CellState.Revealed }) :=
  ⟨by decide, openCell_skips_flags flaggedGame 9 0⟩

theorem countP_split {α : Type} (l : List α) (p q : α → Bool) :
    l.countP p = l.countP (fun a => p a && q a) + l.countP (fun a => p a && !q a) := by
  induction l with
  | nil => rfl
  | cons a l ih =>
    rw [List.countP_cons, List.countP_cons, List.countP_cons, ih]
    cases p a <;> cases q a <;> simp <;> omega

theorem safeLeft_eq_add_revealedSafe {root : Int × Int} {s s' : State}
    (h : Cascade root s s') : safeLeft s = safeLeft s' + revealedSafe s s' := by
  have hsplit := countP_split cells
    (fun p => !(s.realBoard.get p.1 p.2).isMine && decide (s.visible p ≠ CellState.Revealed))
    (fun p => decide (s'.visible p = CellState.Revealed))
  have h1 : cells.countP (fun p =>
      (!(s.realBoard.get p.1 p.2).isMine && decide (s.visible p ≠ CellState.Revealed)) &&
        decide (s'.visible p = CellState.Revealed)) = revealedSafe s s' := by
    apply countP_same
    intro p _
    rw [Bool.and_assoc]
  have h2 : cells.countP (fun p =>
      (!(s.realBoard.get p.1 p.2).isMine && decide (s.visible p ≠ CellState.Revealed)) &&
        !decide (s'.visible p = CellState.Revealed)) = safeLeft s' := by
    apply countP_same
    intro p _
    rw [h.1]
    cases hm : (s.realBoard.get p.1 p.2).isMine with
    | true => rfl
    | false =>
      simp only [Bool.not_false, Bool.true_and, ne_eq, decide_not]
      by_cases hs' : s'.visible p = CellState.Revealed
      · simp [hs']
      · have hs : ¬ (s.visible p = CellState.Revealed) := fun e => hs' (h.revealed_mono e)
        simp [hs', hs]
  have hs : safeLeft s = cells.countP (fun p =>
      !(s.realBoard.get p.1 p.2).isMine && decide (s.visible p ≠ CellState.Revealed)) := rfl
  rw [hs, hsplit, h1, h2]
  omega

/-- C20. Counter accounting: `openCell(row, col)` returns and lowers `movesLeft` by
exactly the number of non-mine cells that it changes to `Revealed`; consequently, in
every state that the loop of `run` reaches from an initial state, `movesLeft` equals the
number of non-mine cells whose visible state is not `Revealed` (`Hidden` or `Flagged`)
and is not negative. -/
theorem movesLeft_accounting (s : State) (row col : Int) (s0 s1 : State) :
    (∃ b s', openCell s row col = some (b, s') ∧
      s'.movesLeft = s.movesLeft - (revealedSafe s s' : Int)) ∧
    (InitialState s0 → Reachable s0 s1 →
      s1.movesLeft = (safeLeft s1 : Int) ∧ 0 ≤ s1.movesLeft) := by
  constructor
  · obtain ⟨b, s', hopen, hpost⟩ := openCell_post s row col
    refine ⟨b, s', hopen, ?_⟩
    have h1 := hpost.1.2.2.2.2
    have h2 := safeLeft_eq_add_revealedSafe hpost.1
    rw [h2] at h1
    push_cast at h1
    omega
  · intro h0 hreach
    have h := (loopInvariant_reachable h0 hreach).1
    exact ⟨h, by rw [h]; exact Int.natCast_nonneg _⟩

set_option maxRecDepth 1000000 in
theorem movesLeft_accounting_witness :
    (∃ b s', openCell flaggedGame 9 0 = some (b, s') ∧
      s'.movesLeft = flaggedGame.movesLeft - (revealedSafe flaggedGame s' : Int)) ∧
    flaggedGame.movesLeft = (safeLeft flaggedGame : Int) ∧ 0 ≤ flaggedGame.movesLeft :=
  ⟨(movesLeft_accounting flaggedGame 9 0 sampleGame flaggedGame).1,
    (movesLeft_accounting flaggedGame 9 0 sampleGame flaggedGame).2 initialState_sampleGame
      (Reachable.next ⟨0, 1, 'f'⟩ Reachable.start rfl step_sampleGame_flag)⟩

end Minesweeper
